import Mathlib

/-!
Verification development for the To-do backend (`index.js`, `models/Todo.js`).

The server keeps a task list either in MongoDB (when a connection is
configured) or in an in-memory array, and handles WebSocket messages
(`todo:add`, `todo:edit`, `todo:toggle`, `todo:remove`, `todo:reorder`,
`todo:restoreMany`, `todo:clearCompleted`, `todo:clearAll`, `sync:request`).
Both backend branches of every handler are embedded below as pure functions:
the Mongo collection as a list of documents (`Doc`, with a `createdAt` stamp
used by the sorted query), the in-memory array as a list of `Todo`,
broadcasts as an explicit output list (`Out`).

JavaScript date parsing (`new Date(dueDate + 'T' + dueTime + ':00')`) is
abstracted by a `parse` function returning the target instant in
milliseconds, `none` standing for an invalid date (whose NaN comparisons make
`computePriorityByDue` return null, exactly as `none` does here).
JavaScript string falsiness (`''`, `null`, `undefined` all falsy) is modelled
by `Option String` where `some ""` is normalised by `jsStr`.
-/

/-- A task as stored by the in-memory backend and as broadcast to clients. -/
structure Todo where
  id : String
  text : String
  completed : Bool
  category : String
  priority : String
  dueDate : Option String
  dueTime : Option String
  dependencies : List String
  locked : Bool
  position : Int
deriving DecidableEq

/-- A MongoDB document of the `Todo` collection (`models/Todo.js`).
`createdAt` is the mongoose timestamp, modelled as an insertion counter
(later inserts get strictly larger stamps). -/
structure Doc where
  docId : String
  text : String
  completed : Bool
  category : String
  priority : String
  dueDate : Option String
  dueTime : Option String
  dependencies : List String
  locked : Bool
  position : Int
  createdAt : Nat
deriving DecidableEq

/-- JS string falsiness: `undefined`/`null`/`''` are all falsy, so an absent
value and an empty string collapse to `none`. -/
def jsStr (o : Option String) : Option String :=
  if o = some "" then none else o

/-- `x || d` for a possibly-falsy string `x` and truthy default `d`. -/
def jsOrS (o : Option String) (d : String) : String :=
  match jsStr o with
  | some s => s
  | none => d

/-- One day in milliseconds (`24 * 60 * 60 * 1000` in the source). -/
def dayMs : Int := 24 * 60 * 60 * 1000

/-- `computePriorityByDue(dueDate, dueTime)` evaluated at instant `now`:
null without a due date; `'high'` when overdue or due within a day,
`'medium'` within three days, null otherwise.  `parse` abstracts
`new Date(dueDate + (dueTime ? 'T'+dueTime+':00' : 'T00:00:00'))`;
an unparseable date yields `none` (NaN fails every comparison in JS,
so the source returns null there too). -/
def computePriorityByDue (parse : String → Option String → Option Int)
    (dueDate dueTime : Option String) (now : Int) : Option String :=
  match jsStr dueDate with
  | none => none
  | some d =>
    match parse d (jsStr dueTime) with
    | none => none
    | some target =>
      let diff := target - now
      if diff ≤ 0 then some "high"
      else if diff ≤ dayMs then some "high"
      else if diff ≤ 3 * dayMs then some "medium"
      else none

/-- `todo.priority || auto || 'low'` (the `todo:add` sites and the Mongo
`todo:edit` site). -/
def derivedPriority (client auto : Option String) : String :=
  match jsStr client with
  | some s => s
  | none =>
    match jsStr auto with
    | some s => s
    | none => "low"

/-- `priority || auto || inMemory[idx].priority || 'low'` (the in-memory
`todo:edit` site): falls back to the previous stored priority. -/
def derivedPriorityKeep (client auto : Option String) (prev : String) : String :=
  match jsStr client with
  | some s => s
  | none =>
    match jsStr auto with
    | some s => s
    | none => if prev = "" then "low" else prev

/-- `const t = inMemory.find(x => x.id === dep); t && t.completed` —
whether the first in-memory task with this id exists and is completed. -/
def completedOf (tasks : List Todo) (dep : String) : Bool :=
  match tasks.find? (fun t => t.id == dep) with
  | some t => t.completed
  | none => false

/-- `deps.some(dep => !(t && t.completed))` — the in-memory blocking test
(also inlined inside the `todo:toggle` dependent loop). -/
def blockedAny (tasks : List Todo) (deps : List String) : Bool :=
  deps.any (fun dep => ! completedOf tasks dep)

/-- `computeLockedFor` on the in-memory branch. -/
def computeLockedForMem (tasks : List Todo) (deps : List String) : Bool :=
  if deps.isEmpty then false else blockedAny tasks deps

/-- `computeLockedFor` on the Mongo branch: fetch the docs whose `_id` is in
`deps` and lock unless every fetched doc is completed (a dangling id fetches
nothing, so it never blocks). -/
def computeLockedForMongo (docs : List Doc) (deps : List String) : Bool :=
  if deps.isEmpty then false
  else ! (docs.filter (fun d => deps.contains d.docId)).all (·.completed)

lemma computeLockedForMongo_eq_true_iff (docs : List Doc) (deps : List String) :
    computeLockedForMongo docs deps = true ↔
      deps ≠ [] ∧ ∃ d ∈ docs, d.docId ∈ deps ∧ d.completed = false := by
  unfold computeLockedForMongo
  by_cases h : deps.isEmpty
  · simp [h, List.isEmpty_iff.mp h]
  · rw [if_neg h]
    simp only [List.isEmpty_iff] at h
    simp [List.all_eq_true, List.mem_filter, h]

lemma computeLockedForMem_eq_true_iff (tasks : List Todo) (deps : List String) :
    computeLockedForMem tasks deps = true ↔
      deps ≠ [] ∧ ∃ dep ∈ deps, completedOf tasks dep = false := by
  unfold computeLockedForMem blockedAny
  by_cases h : deps.isEmpty
  · simp [h, List.isEmpty_iff.mp h]
  · rw [if_neg h]
    simp only [List.isEmpty_iff] at h
    simp [List.any_eq_true, h]

lemma completedOf_cons_self (a : Todo) (l : List Todo) :
    completedOf (a :: l) a.id = a.completed := by
  unfold completedOf
  rw [List.find?_cons_of_pos _ (by simp)]

lemma completedOf_cons_ne (a : Todo) (l : List Todo) (dep : String) (ha : a.id ≠ dep) :
    completedOf (a :: l) dep = completedOf l dep := by
  unfold completedOf
  rw [List.find?_cons_of_neg _ (by simpa using ha)]

/-- With distinct in-memory ids, the first-match completion test agrees with
plain existence of a completed task carrying the id. -/
lemma completedOf_eq_true_iff_of_nodup (tasks : List Todo) (dep : String) :
    (tasks.map Todo.id).Nodup →
      (completedOf tasks dep = true ↔ ∃ t ∈ tasks, t.id = dep ∧ t.completed = true) := by
  induction tasks with
  | nil => intro _; simp [completedOf]
  | cons a l ih =>
    intro hnd
    simp only [List.map_cons, List.nodup_cons] at hnd
    by_cases ha : a.id = dep
    · subst ha
      rw [completedOf_cons_self]
      constructor
      · intro hc; exact ⟨a, List.mem_cons_self a l, rfl, hc⟩
      · rintro ⟨t, ht, hid, hc⟩
        rcases List.mem_cons.mp ht with rfl | ht
        · exact hc
        · exact absurd (hid ▸ List.mem_map_of_mem Todo.id ht) hnd.1
    · rw [completedOf_cons_ne a l dep ha, ih hnd.2]
      constructor
      · rintro ⟨t, ht, hid, hc⟩; exact ⟨t, List.mem_cons_of_mem a ht, hid, hc⟩
      · rintro ⟨t, ht, hid, hc⟩
        rcases List.mem_cons.mp ht with rfl | ht
        · exact absurd hid ha
        · exact ⟨t, ht, hid, hc⟩

/-- A server→client message observable by clients: the optimistic-add
confirmation (a unicast `ws.send`) plus the broadcast kinds. -/
inductive Out where
  | confirm (tempId realId : String)
  | update (t : Todo)
  | replaceList (ts : List Todo)
  | reminder (id message : String)
deriving DecidableEq

/-- The reminder text broadcast when a dependent task unlocks. -/
def unlockMessage : String := "A dependency finished - this task is unlocked."

/-- The `todo:add` payload (it "may include temp id"). `completed` stands for
`!!todo.completed`; a non-array `dependencies` counts as absent. -/
structure AddPayload where
  tempId : Option String
  text : String
  completed : Bool
  category : Option String
  priority : Option String
  dueDate : Option String
  dueTime : Option String
  dependencies : Option (List String)
deriving DecidableEq

/-- The `todo:edit` payload: `none` is an `undefined` (absent) field. A field
supplied as `""` (or JSON `null`, equal in every truthiness test the handler
performs) is `some ""`. -/
structure EditPayload where
  id : String
  text : Option String
  category : Option String
  priority : Option String
  dueDate : Option String
  dueTime : Option String
  dependencies : Option (List String)
deriving DecidableEq

/-- `findIndex` + in-place assignment: rewrite the first entry matching `p`. -/
def updateFirst (p : Todo → Bool) (f : Todo → Todo) : List Todo → List Todo
  | [] => []
  | t :: ts => if p t then f t :: ts else t :: updateFirst p f ts

/-- The object map built by `inMemory.forEach(t => map[t.id] = t)`: a later
task with the same id overwrites an earlier one, so lookup yields the last. -/
def lastWithId (tasks : List Todo) (id : String) : Option Todo :=
  tasks.reverse.find? (fun t => t.id == id)

/-- The in-memory backend: the `inMemory` array plus a counter standing in
for `Date.now()` in the generated `'m_' + Date.now()` ids. -/
structure MemState where
  tasks : List Todo
  nextId : Nat
deriving DecidableEq

def MemState.empty : MemState := ⟨[], 0⟩

/-- `todo:add`, in-memory branch: derive priority and locked, build the task
with `position = inMemory.length`, `unshift` it onto the front, confirm the
optimistic id if one was sent, broadcast the new task. -/
def memAddObj (parse : String → Option String → Option Int) (now : Int)
    (p : AddPayload) (st : MemState) : Todo :=
  let auto := computePriorityByDue parse p.dueDate p.dueTime now
  let deps := p.dependencies.getD []
  { id := "m_" ++ toString st.nextId, text := p.text, completed := p.completed,
    category := jsOrS p.category "other",
    priority := derivedPriority p.priority auto,
    dueDate := jsStr p.dueDate, dueTime := jsStr p.dueTime,
    dependencies := deps, locked := computeLockedForMem st.tasks deps,
    position := Int.ofNat st.tasks.length }

/-- `todo:add`, in-memory: `unshift` the built object onto the front, confirm
 the optimistic id if one was sent, broadcast the new task. -/
def memAdd (parse : String → Option String → Option Int) (now : Int)
    (p : AddPayload) (st : MemState) : MemState × List Out :=
  let obj := memAddObj parse now p st
  (⟨obj :: st.tasks, st.nextId + 1⟩,
    (match jsStr p.tempId with
     | some tempId => [Out.confirm tempId obj.id]
     | none => []) ++ [Out.update obj])

/-- The field updates the in-memory `todo:edit` applies to the found task,
before the final `locked` recompute. -/
def applyEditFieldsMem (parse : String → Option String → Option Int) (now : Int)
    (p : EditPayload) (t : Todo) : Todo :=
  let t := match p.text with | some s => { t with text := s } | none => t
  let t := match p.category with
    | some c => { t with category := if c = "" then t.category else c }
    | none => t
  let t := match p.dueDate with | some d => { t with dueDate := jsStr (some d) } | none => t
  let t := match p.dueTime with | some d => { t with dueTime := jsStr (some d) } | none => t
  let auto := computePriorityByDue parse p.dueDate p.dueTime now
  let t := { t with priority := derivedPriorityKeep p.priority auto t.priority }
  match p.dependencies with
  | some ds => { t with dependencies := ds }
  | none => t

/-- `todo:edit`, in-memory branch: apply the supplied fields to the first
matching task, then always recompute `locked` from its (possibly new)
dependency list over the updated array, and broadcast the result. -/
def memEdit (parse : String → Option String → Option Int) (now : Int)
    (p : EditPayload) (st : MemState) : MemState × List Out :=
  if p.id = "" then (st, [])
  else
    match st.tasks.find? (fun t => t.id == p.id) with
    | none => (st, [])
    | some _ =>
      let tasks1 := updateFirst (fun t => t.id == p.id) (applyEditFieldsMem parse now p) st.tasks
      match tasks1.find? (fun t => t.id == p.id) with
      | none => (st, [])
      | some u =>
        let locked := computeLockedForMem tasks1 u.dependencies
        let tasks2 := updateFirst (fun t => t.id == p.id) (fun t => { t with locked := locked }) tasks1
        (⟨tasks2, st.nextId⟩, [Out.update { u with locked := locked }])

/-- `todo:remove`, in-memory branch. -/
def memRemove (id : String) (st : MemState) : MemState × List Out :=
  if id = "" then (st, [])
  else
    let tasks := st.tasks.filter (fun t => ! (t.id == id))
    (⟨tasks, st.nextId⟩, [Out.replaceList tasks])

/-- The dependent-unlock loop of the in-memory `todo:toggle`
(`for (const other of inMemory) ...`): processed entries accumulate in `done`
(reversed); the blocking recompute reads the whole live array, in which
earlier iterations have only cleared `locked` flags. -/
def propagateMemAux (tid : String) (done : List Todo) : List Todo → List Todo × List Out
  | [] => (done.reverse, [])
  | other :: rest =>
    let live := done.reverse ++ other :: rest
    if other.dependencies.contains tid then
      let locked := blockedAny live other.dependencies
      if !locked && other.locked then
        let o := { other with locked := false }
        let r := propagateMemAux tid (o :: done) rest
        (r.1, Out.update o :: Out.reminder other.id unlockMessage :: r.2)
      else propagateMemAux tid (other :: done) rest
    else propagateMemAux tid (other :: done) rest

/-- `todo:toggle`, in-memory branch: flip `completed` of the first matching
task, broadcast it, and if it is now completed run the dependent-unlock loop. -/
def memToggle (id : String) (st : MemState) : MemState × List Out :=
  if id = "" then (st, [])
  else
    match st.tasks.find? (fun t => t.id == id) with
    | none => (st, [])
    | some t =>
      let t' := { t with completed := ! t.completed }
      let tasks1 := updateFirst (fun x => x.id == id)
        (fun x => { x with completed := ! x.completed }) st.tasks
      if t'.completed then
        let r := propagateMemAux id [] tasks1
        (⟨r.1, st.nextId⟩, Out.update t' :: r.2)
      else (⟨tasks1, st.nextId⟩, [Out.update t'])

/-- `todo:clearCompleted`, in-memory branch. -/
def memClearCompleted (st : MemState) : MemState × List Out :=
  let tasks := st.tasks.filter (fun t => ! t.completed)
  (⟨tasks, st.nextId⟩, [Out.replaceList tasks])

/-- `todo:clearAll` / `todo:removeAll`, in-memory branch. -/
def memClearAll (st : MemState) : MemState × List Out :=
  (⟨[], st.nextId⟩, [Out.replaceList []])

/-- The spread of `{ id, text: '', completed: false }` synthesized for an id
the reorder finds no task for; fields left `undefined` by JS are modelled by
the neutral values below. -/
def placeholderTodo (id : String) : Todo :=
  { id := id, text := "", completed := false, category := "", priority := "",
    dueDate := none, dueTime := none, dependencies := [], locked := false,
    position := 0 }

/-- `order.map((id, i) => ({ ...(map[id] || placeholder), position: i }))`. -/
def memReorderGo (tasks : List Todo) : Nat → List String → List Todo
  | _, [] => []
  | i, id :: rest =>
    (match lastWithId tasks id with
     | some t => { t with position := Int.ofNat i }
     | none => { placeholderTodo id with position := Int.ofNat i }) ::
      memReorderGo tasks (i + 1) rest

/-- `todo:reorder`, in-memory branch: the array is rebuilt from `order`
alone, so tasks absent from `order` disappear. -/
def memReorder (order : List String) (st : MemState) : MemState × List Out :=
  let tasks := memReorderGo st.tasks 0 order
  (⟨tasks, st.nextId⟩, [Out.replaceList tasks])

/-- `todo:restoreMany`, in-memory branch: `inMemory = [...items, ...inMemory]`,
snapshots kept verbatim. -/
def memRestoreMany (items : List Todo) (st : MemState) : MemState × List Out :=
  let tasks := items ++ st.tasks
  (⟨tasks, st.nextId⟩, [Out.replaceList tasks])

/-- `getAllTodos`, in-memory branch: a field-for-field copy of the array in
its internal order (no sorting happens on this branch). -/
def getAllTodosMem (st : MemState) : List Todo := st.tasks

/-- `sync:request` (also the unsolicited push on connection). -/
def memSyncRequest (st : MemState) : MemState × List Out :=
  (st, [Out.replaceList (getAllTodosMem st)])

/-- A recognized client message with a well-formed payload (the handler drops
anything else without effect). -/
inductive Msg where
  | syncRequest
  | add (p : AddPayload)
  | edit (p : EditPayload)
  | remove (id : String)
  | toggle (id : String)
  | clearCompleted
  | clearAll
  | reorder (order : List String)
  | restoreMany (items : List Todo)
deriving DecidableEq

/-- `handleMessage` with the in-memory branches taken
(`mongoose.connection.readyState !== 1`). -/
def handleMem (parse : String → Option String → Option Int) (now : Int)
    (st : MemState) : Msg → MemState × List Out
  | .syncRequest => memSyncRequest st
  | .add p => memAdd parse now p st
  | .edit p => memEdit parse now p st
  | .remove id => memRemove id st
  | .toggle id => memToggle id st
  | .clearCompleted => memClearCompleted st
  | .clearAll => memClearAll st
  | .reorder order => memReorder order st
  | .restoreMany items => memRestoreMany items st

/-- A sequence of operations applied to the in-memory store, each with the
wall-clock instant at which it arrives. -/
def runMem (parse : String → Option String → Option Int) :
    List (Int × Msg) → MemState → MemState
  | [], st => st
  | (now, m) :: ops, st => runMem parse ops (handleMem parse now st m).1

/-- The Mongo-backed store: the `todos` collection plus counters generating
fresh ObjectIds (opaque here) and increasing `createdAt` stamps. -/
structure MongoState where
  docs : List Doc
  nextId : Nat
  nextStamp : Nat
deriving DecidableEq

def MongoState.empty : MongoState := ⟨[], 0, 0⟩

/-- The client-facing object built from a document:
`{ id: String(d._id), text, completed, category, priority, position,
dueDate: d.dueDate || null, dueTime: d.dueTime || null,
dependencies: d.dependencies || [], locked: !!d.locked }`. -/
def viewDoc (d : Doc) : Todo :=
  { id := d.docId, text := d.text, completed := d.completed,
    category := d.category, priority := d.priority,
    dueDate := jsStr d.dueDate, dueTime := jsStr d.dueTime,
    dependencies := d.dependencies, locked := d.locked, position := d.position }

/-- The sort key of `.sort({ position: 1, createdAt: -1 })`: position
ascending, ties broken by newest creation first. -/
def docLe (a b : Doc) : Bool :=
  decide (a.position < b.position) ||
    (decide (a.position = b.position) && decide (b.createdAt ≤ a.createdAt))

/-- to insert into an already sorted run. -/
def insertSortedDoc (x : Doc) : List Doc → List Doc
  | [] => [x]
  | y :: ys => if docLe x y then x :: y :: ys else y :: insertSortedDoc x ys

/-- The sorted query result (insertion sort; the key is total, and
`createdAt` stamps are distinct, so any correct sort returns this order). -/
def sortDocs : List Doc → List Doc
  | [] => []
  | x :: xs => insertSortedDoc x (sortDocs xs)

/-- `getAllTodos`, Mongo branch:
`Todo.find({}).sort({ position: 1, createdAt: -1 })` mapped to client shape. -/
def getAllTodosMongo (st : MongoState) : List Todo :=
  (sortDocs st.docs).map viewDoc

/-- `await Todo.findOne().sort({ position: -1 })` — the largest stored
position, if any doc exists. -/
def maxPosition (docs : List Doc) : Option Int :=
  (docs.map (·.position)).max?

/-- `last ? (last.position || 0) + 1 : 0` (`p || 0` is the identity on a
stored integer position). -/
def nextPosition (docs : List Doc) : Int :=
  match maxPosition docs with
  | some p => p + 1
  | none => 0

/-- `findIndex`-like first-match rewrite on the collection (an `_id` is
unique in Mongo, so at most one doc matches an id predicate). -/
def updateFirstDoc (p : Doc → Bool) (f : Doc → Doc) : List Doc → List Doc
  | [] => []
  | d :: ds => if p d then f d :: ds else d :: updateFirstDoc p f ds

/-- `findByIdAndDelete`: remove the doc carrying the id. -/
def removeFirstDoc (p : Doc → Bool) : List Doc → List Doc
  | [] => []
  | d :: ds => if p d then ds else d :: removeFirstDoc p ds

/-- `todo:add`, Mongo branch: position is one past the current maximum,
priority and locked are derived, the doc is created (appended, with a fresh
stamp), the optimistic id confirmed and the new todo broadcast. -/
def mongoAddDoc (parse : String → Option String → Option Int) (now : Int)
    (p : AddPayload) (st : MongoState) : Doc :=
  let auto := computePriorityByDue parse p.dueDate p.dueTime now
  let deps := p.dependencies.getD []
  { docId := "d_" ++ toString st.nextId, text := p.text, completed := p.completed,
    category := jsOrS p.category "other",
    priority := derivedPriority p.priority auto,
    dueDate := jsStr p.dueDate, dueTime := jsStr p.dueTime,
    dependencies := deps, locked := computeLockedForMongo st.docs deps,
    position := nextPosition st.docs, createdAt := st.nextStamp }

/-- `todo:add`, Mongo: create the doc (appended, fresh stamp), confirm the
optimistic id if one was sent, broadcast the new todo. -/
def mongoAdd (parse : String → Option String → Option Int) (now : Int)
    (p : AddPayload) (st : MongoState) : MongoState × List Out :=
  let doc := mongoAddDoc parse now p st
  (⟨st.docs ++ [doc], st.nextId + 1, st.nextStamp + 1⟩,
    (match jsStr p.tempId with
     | some tempId => [Out.confirm tempId doc.docId]
     | none => []) ++ [Out.update (viewDoc doc)])

/-- The `update` document the Mongo `todo:edit` passes to
`findByIdAndUpdate`: supplied fields, `priority` unconditionally set to
`priority || auto || 'low'`, dependencies only when an array was sent. -/
def applyEditFieldsMongo (parse : String → Option String → Option Int) (now : Int)
    (p : EditPayload) (d : Doc) : Doc :=
  let d := match p.text with | some s => { d with text := s } | none => d
  let d := match p.category with | some c => { d with category := c } | none => d
  let d := match p.dueDate with | some s => { d with dueDate := jsStr (some s) } | none => d
  let d := match p.dueTime with | some s => { d with dueTime := jsStr (some s) } | none => d
  let auto := computePriorityByDue parse p.dueDate p.dueTime now
  let d := { d with priority := derivedPriority p.priority auto }
  match p.dependencies with
  | some ds => { d with dependencies := ds }
  | none => d

/-- `todo:edit`, Mongo branch: apply the update, re-read the doc, recompute
`locked` (persisting it only when it changed) and broadcast. A missing id
no-ops without a broadcast (the re-read returns null and the handler's
exception is swallowed by the caller). -/
def mongoEdit (parse : String → Option String → Option Int) (now : Int)
    (p : EditPayload) (st : MongoState) : MongoState × List Out :=
  if p.id = "" then (st, [])
  else
    match st.docs.find? (fun d => d.docId == p.id) with
    | none => (st, [])
    | some _ =>
      let docs1 := updateFirstDoc (fun d => d.docId == p.id) (applyEditFieldsMongo parse now p) st.docs
      match docs1.find? (fun d => d.docId == p.id) with
      | none => (st, [])
      | some doc =>
        let locked := computeLockedForMongo docs1 doc.dependencies
        let docs2 :=
          if locked != doc.locked then
            updateFirstDoc (fun d => d.docId == p.id) (fun d => { d with locked := locked }) docs1
          else docs1
        (⟨docs2, st.nextId, st.nextStamp⟩, [Out.update { viewDoc doc with locked := locked }])

/-- `todo:remove`, Mongo branch. -/
def mongoRemove (id : String) (st : MongoState) : MongoState × List Out :=
  if id = "" then (st, [])
  else
    let st' : MongoState := ⟨removeFirstDoc (fun d => d.docId == id) st.docs, st.nextId, st.nextStamp⟩
    (st', [Out.replaceList (getAllTodosMongo st')])

/-- The dependent loop of the Mongo `todo:toggle`: the dependents snapshot
was fetched up front; each iteration recomputes the lock over the live
collection, in which earlier iterations have only cleared `locked` flags,
and broadcasts the update (with `locked: false`) plus a reminder. -/
def propagateMongoAux (tid : String) : List Doc → List Doc → List Doc × List Out
  | docs, [] => (docs, [])
  | docs, dep :: rest =>
    let locked := computeLockedForMongo docs dep.dependencies
    if !locked && dep.locked then
      let docs' := updateFirstDoc (fun d => d.docId == dep.docId) (fun d => { d with locked := false }) docs
      let r := propagateMongoAux tid docs' rest
      (r.1, Out.update { viewDoc dep with locked := false } ::
        Out.reminder dep.docId unlockMessage :: r.2)
    else propagateMongoAux tid docs rest

/-- `todo:toggle`, Mongo branch: flip and save `completed`, broadcast the
updated todo, and if it is now completed walk every doc whose
`dependencies` contains the id. -/
def mongoToggle (id : String) (st : MongoState) : MongoState × List Out :=
  if id = "" then (st, [])
  else
    match st.docs.find? (fun d => d.docId == id) with
    | none => (st, [])
    | some doc =>
      let doc' := { doc with completed := ! doc.completed }
      let docs1 := updateFirstDoc (fun d => d.docId == id)
        (fun d => { d with completed := ! d.completed }) st.docs
      if doc'.completed then
        let dependents := docs1.filter (fun d => d.dependencies.contains id)
        let r := propagateMongoAux id docs1 dependents
        (⟨r.1, st.nextId, st.nextStamp⟩, Out.update (viewDoc doc') :: r.2)
      else (⟨docs1, st.nextId, st.nextStamp⟩, [Out.update (viewDoc doc')])

/-- `todo:clearCompleted`, Mongo branch. -/
def mongoClearCompleted (st : MongoState) : MongoState × List Out :=
  let st' : MongoState := ⟨st.docs.filter (fun d => ! d.completed), st.nextId, st.nextStamp⟩
  (st', [Out.replaceList (getAllTodosMongo st')])

/-- `todo:clearAll` / `todo:removeAll`, Mongo branch. -/
def mongoClearAll (st : MongoState) : MongoState × List Out :=
  (⟨[], st.nextId, st.nextStamp⟩, [Out.replaceList []])

/-- The Mongo `todo:reorder` loop: `findByIdAndUpdate(order[i], { position: i })`
for each index; an id matching no doc updates nothing. -/
def mongoReorderGo : Nat → List String → List Doc → List Doc
  | _, [], docs => docs
  | i, id :: rest, docs =>
    mongoReorderGo (i + 1) rest
      (updateFirstDoc (fun d => d.docId == id) (fun d => { d with position := Int.ofNat i }) docs)

/-- `todo:reorder`, Mongo branch. -/
def mongoReorder (order : List String) (st : MongoState) : MongoState × List Out :=
  let st' : MongoState := ⟨mongoReorderGo 0 order st.docs, st.nextId, st.nextStamp⟩
  (st', [Out.replaceList (getAllTodosMongo st')])

/-- The docs `todo:restoreMany` inserts:
`{ text, completed: !!t.completed, category: t.category || 'other',
priority: t.priority || 'low', position: Date.now() + i }` — dueDate,
dueTime, dependencies and locked are not carried over, so the schema
defaults (`null`, `null`, `[]`, `false`) apply. -/
def mongoRestoreDocs (now : Int) (baseId baseStamp : Nat) : Nat → List Todo → List Doc
  | _, [] => []
  | i, t :: ts =>
    { docId := "d_" ++ toString (baseId + i), text := t.text, completed := t.completed,
      category := if t.category = "" then "other" else t.category,
      priority := if t.priority = "" then "low" else t.priority,
      dueDate := none, dueTime := none, dependencies := [], locked := false,
      position := now + Int.ofNat i, createdAt := baseStamp + i } ::
      mongoRestoreDocs now baseId baseStamp (i + 1) ts

/-- `todo:restoreMany`, Mongo branch: `insertMany` of the snapshots, then a
full replacement broadcast. -/
def mongoRestoreMany (now : Int) (items : List Todo) (st : MongoState) :
    MongoState × List Out :=
  let st' : MongoState :=
    ⟨st.docs ++ mongoRestoreDocs now st.nextId st.nextStamp 0 items,
      st.nextId + items.length, st.nextStamp + items.length⟩
  (st', [Out.replaceList (getAllTodosMongo st')])

/-- `sync:request` on the Mongo branch. -/
def mongoSyncRequest (st : MongoState) : MongoState × List Out :=
  (st, [Out.replaceList (getAllTodosMongo st)])

/-- `handleMessage` with the Mongo branches taken
(`mongoose.connection.readyState === 1`). -/
def handleMongo (parse : String → Option String → Option Int) (now : Int)
    (st : MongoState) : Msg → MongoState × List Out
  | .syncRequest => mongoSyncRequest st
  | .add p => mongoAdd parse now p st
  | .edit p => mongoEdit parse now p st
  | .remove id => mongoRemove id st
  | .toggle id => mongoToggle id st
  | .clearCompleted => mongoClearCompleted st
  | .clearAll => mongoClearAll st
  | .reorder order => mongoReorder order st
  | .restoreMany items => mongoRestoreMany now items st

lemma jsStr_some_of_ne (s : String) (h : s ≠ "") : jsStr (some s) = some s := by
  simp [jsStr, h]

lemma derivedPriority_client (c auto : Option String) (s : String)
    (h : jsStr c = some s) : derivedPriority c auto = s := by
  unfold derivedPriority
  rw [h]

lemma derivedPriority_no_client (c auto : Option String) (h : jsStr c = none) :
    derivedPriority c auto = jsOrS auto "low" := by
  unfold derivedPriority jsOrS
  rw [h]

lemma computePriorityByDue_parsed (parse : String → Option String → Option Int)
    (dueDate dueTime : Option String) (now : Int) (ds : String) (target : Int)
    (hd : jsStr dueDate = some ds) (hp : parse ds (jsStr dueTime) = some target) :
    computePriorityByDue parse dueDate dueTime now =
      if target - now ≤ 0 then some "high"
      else if target - now ≤ dayMs then some "high"
      else if target - now ≤ 3 * dayMs then some "medium"
      else none := by
  unfold computePriorityByDue
  rw [hd]
  dsimp only
  rw [hp]

lemma computePriorityByDue_no_due (parse : String → Option String → Option Int)
    (dueDate dueTime : Option String) (now : Int) (hd : jsStr dueDate = none) :
    computePriorityByDue parse dueDate dueTime now = none := by
  unfold computePriorityByDue
  rw [hd]

lemma computePriorityByDue_bad_parse (parse : String → Option String → Option Int)
    (dueDate dueTime : Option String) (now : Int) (ds : String)
    (hd : jsStr dueDate = some ds) (hp : parse ds (jsStr dueTime) = none) :
    computePriorityByDue parse dueDate dueTime now = none := by
  unfold computePriorityByDue
  rw [hd]
  dsimp only
  rw [hp]

/-- C1 (amended).  Lock characterisation of `computeLockedFor`: on the
durable (Mongo) branch, `locked = true` iff `dependencies` is non-empty and
at least one referenced task exists in the store with `completed = false` —
a dangling reference never forces a lock, exactly as the claim states.  On
the in-memory branch the claim fails (see the counterexample): there
`locked = true` iff `dependencies` is non-empty and some listed id has no
existing-and-completed first match, so a dangling reference does force a
lock. -/
theorem c1_lock_characterisation (docs : List Doc) (tasks : List Todo)
    (deps : List String) :
    (computeLockedForMongo docs deps = true ↔
      deps ≠ [] ∧ ∃ d ∈ docs, d.docId ∈ deps ∧ d.completed = false) ∧
    (computeLockedForMem tasks deps = true ↔
      deps ≠ [] ∧ ∃ dep ∈ deps, completedOf tasks dep = false) :=
  ⟨computeLockedForMongo_eq_true_iff docs deps,
    computeLockedForMem_eq_true_iff tasks deps⟩

/-- C1 counterexample: with an empty store and the dependency list `["x"]`
(a dangling reference), the in-memory `computeLockedFor` returns `true`,
while the claimed characterisation — shared by both backends per the claim —
demands `false` because no referenced task exists with `completed = false`. -/
theorem c1_lock_characterisation_cex :
    ¬ (computeLockedForMem [] ["x"] = true ↔
        ["x"] ≠ ([] : List String) ∧
          ∃ t ∈ ([] : List Todo), t.id ∈ ["x"] ∧ t.completed = false) := by
  decide

lemma docLe_total (a b : Doc) : docLe a b = true ∨ docLe b a = true := by
  unfold docLe
  rcases lt_trichotomy a.position b.position with h | h | h
  · left; simp [h]
  · rcases Nat.le_total a.createdAt b.createdAt with h' | h'
    · right; simp [h.symm, h']
    · left; simp [h, h']
  · right; simp [h]

lemma docLe_trans (a b c : Doc) (hab : docLe a b = true) (hbc : docLe b c = true) :
    docLe a c = true := by
  unfold docLe at *
  simp only [Bool.or_eq_true, Bool.and_eq_true, decide_eq_true_eq] at *
  rcases hab with h1 | ⟨h1, h1'⟩ <;> rcases hbc with h2 | ⟨h2, h2'⟩
  · exact Or.inl (h1.trans h2)
  · exact Or.inl (h2 ▸ h1)
  · exact Or.inl (h1 ▸ h2)
  · exact Or.inr ⟨h1.trans h2, h2'.trans h1'⟩

lemma mem_insertSortedDoc (a x : Doc) (l : List Doc) :
    a ∈ insertSortedDoc x l ↔ a = x ∨ a ∈ l := by
  induction l with
  | nil => simp [insertSortedDoc]
  | cons y ys ih =>
    unfold insertSortedDoc
    by_cases h : docLe x y
    · simp [h]
    · simp only [if_neg h, List.mem_cons, ih]
      tauto

lemma sorted_insertSortedDoc (x : Doc) (l : List Doc) :
    l.Pairwise (fun a b => docLe a b = true) →
      (insertSortedDoc x l).Pairwise (fun a b => docLe a b = true) := by
  induction l with
  | nil => intro _; simp [insertSortedDoc]
  | cons y ys ih =>
    intro hl
    rcases List.pairwise_cons.mp hl with ⟨hy, hys⟩
    unfold insertSortedDoc
    by_cases h : docLe x y = true
    · rw [if_pos h]
      refine List.pairwise_cons.mpr ⟨?_, hl⟩
      intro b hb
      rcases List.mem_cons.mp hb with rfl | hb
      · exact h
      · exact docLe_trans x y b h (hy b hb)
    · rw [if_neg h]
      refine List.pairwise_cons.mpr ⟨?_, ih hys⟩
      intro b hb
      rcases (mem_insertSortedDoc b x ys).mp hb with hbx | hb
      · rcases docLe_total x y with h' | h'
        · exact absurd h' h
        · rw [hbx]; exact h'
      · exact hy b hb

lemma sortDocs_sorted (l : List Doc) :
    (sortDocs l).Pairwise (fun a b => docLe a b = true) := by
  induction l with
  | nil => simp [sortDocs]
  | cons x xs ih => exact sorted_insertSortedDoc x (sortDocs xs) ih

lemma mem_sortDocs (a : Doc) (l : List Doc) : a ∈ sortDocs l ↔ a ∈ l := by
  induction l with
  | nil => simp [sortDocs]
  | cons x xs ih =>
    unfold sortDocs
    rw [mem_insertSortedDoc, ih, List.mem_cons]

lemma insertSortedDoc_append_last (y x : Doc) (s : List Doc) (h : docLe y x = true) :
    insertSortedDoc y (s ++ [x]) = insertSortedDoc y s ++ [x] := by
  induction s with
  | nil => simp [insertSortedDoc, h]
  | cons z s' ih =>
    unfold insertSortedDoc
    by_cases hz : docLe y z
    · simp [hz]
    · simp [hz, ih]

lemma sortDocs_append_last (l : List Doc) (x : Doc)
    (h : ∀ y ∈ l, docLe y x = true) :
    sortDocs (l ++ [x]) = sortDocs l ++ [x] := by
  induction l with
  | nil => rfl
  | cons y l' ih =>
    show insertSortedDoc y (sortDocs (l' ++ [x])) = insertSortedDoc y (sortDocs l') ++ [x]
    rw [ih (fun z hz => h z (List.mem_cons_of_mem y hz)),
      insertSortedDoc_append_last y x (sortDocs l') (h y (List.mem_cons_self y l'))]

lemma position_lt_nextPosition (docs : List Doc) (d : Doc) (hd : d ∈ docs) :
    d.position < nextPosition docs := by
  unfold nextPosition maxPosition
  cases h : (docs.map (·.position)).max? with
  | none =>
    rw [List.max?_eq_none_iff] at h
    simp only [List.map_eq_nil_iff] at h
    subst h
    cases hd
  | some m =>
    have h1 : d.position ≤ m :=
      (List.max?_le_iff (fun _ _ _ => max_le_iff) h).mp (le_refl m) _
        (List.mem_map_of_mem _ hd)
    show d.position < m + 1
    omega

/-- A date parser for the concrete runs below (none of them uses due dates). -/
def parse0 : String → Option String → Option Int := fun _ _ => none

/-- A minimal `todo:add` payload. -/
def addP (txt : String) : AddPayload :=
  { tempId := none, text := txt, completed := false, category := none,
    priority := none, dueDate := none, dueTime := none, dependencies := none }

/-- A `todo:add` payload carrying a dependency list. -/
def addPDeps (txt : String) (deps : List String) : AddPayload :=
  { addP txt with dependencies := some deps }

lemma view_sortDocs_append_big (docs : List Doc) (dNew : Doc)
    (h : ∀ y ∈ docs, y.position < dNew.position) :
    (sortDocs (docs ++ [dNew])).map viewDoc =
      (sortDocs docs).map viewDoc ++ [viewDoc dNew] := by
  rw [sortDocs_append_last docs dNew
    (fun y hy => by unfold docLe; simp [h y hy])]
  simp

/-- C6 (amended).  On the durable (Mongo) backend the claim holds: the list
`sync:request` returns (also pushed on connection) is ordered by the key
"position ascending, ties by newest `createdAt` first" — hence positions are
ascending — and a `todo:add` appends its new task at the end of that list,
with a position strictly greater than every existing one.  On the in-memory
backend the claim fails (see the counterexample): the list is returned in
internal array order, and `todo:add` unshifts the new, highest-positioned
task onto the front, so after two adds the positions are descending. -/
theorem c6_sync_list_order (parse : String → Option String → Option Int)
    (now : Int) (p : AddPayload) (st : MongoState) :
    List.Pairwise (fun a b => docLe a b = true) (sortDocs st.docs) ∧
    List.Pairwise (fun a b : Todo => a.position ≤ b.position) (getAllTodosMongo st) ∧
    (getAllTodosMongo (mongoAdd parse now p st).1 =
        getAllTodosMongo st ++ [viewDoc (mongoAddDoc parse now p st)] ∧
      ∀ u ∈ getAllTodosMongo st, u.position < (viewDoc (mongoAddDoc parse now p st)).position) := by
  have hlt : ∀ y ∈ st.docs, y.position < (mongoAddDoc parse now p st).position :=
    fun y hy => position_lt_nextPosition st.docs y hy
  refine ⟨sortDocs_sorted st.docs, ?_, ?_, ?_⟩
  · unfold getAllTodosMongo
    rw [List.pairwise_map]
    apply (sortDocs_sorted st.docs).imp
    intro a b hab
    unfold docLe at hab
    simp only [Bool.or_eq_true, Bool.and_eq_true, decide_eq_true_eq] at hab
    show a.position ≤ b.position
    rcases hab with h | ⟨h, _⟩
    · exact le_of_lt h
    · exact le_of_eq h
  · show (sortDocs (st.docs ++ [mongoAddDoc parse now p st])).map viewDoc = _
    exact view_sortDocs_append_big st.docs (mongoAddDoc parse now p st) hlt
  · intro u hu
    unfold getAllTodosMongo at hu
    rcases List.mem_map.mp hu with ⟨d, hd, rfl⟩
    exact hlt d ((mem_sortDocs d st.docs).mp hd)

/-- C6 counterexample: on the in-memory backend, after two `todo:add`
operations the list `sync:request` returns is `[position 1, position 0]` —
not ordered by position ascending as the claim requires of every store
state. -/
theorem c6_sync_list_order_cex :
    ¬ List.Pairwise (fun a b : Todo => a.position ≤ b.position)
        (getAllTodosMem
          (runMem parse0 [(0, Msg.add (addP "t1")), (0, Msg.add (addP "t2"))]
            MemState.empty)) := by
  decide

lemma find?_eq_some_id (tasks : List Todo) (id : String) (t : Todo)
    (h : tasks.find? (fun x => x.id == id) = some t) : t.id = id := by
  have := List.find?_some h
  simpa using this

lemma lastWithId_id (tasks : List Todo) (id : String) (t : Todo)
    (h : lastWithId tasks id = some t) : t.id = id :=
  find?_eq_some_id tasks.reverse id t h

lemma memReorderGo_map_id (tasks : List Todo) :
    ∀ (i : Nat) (order : List String),
      (memReorderGo tasks i order).map Todo.id = order := by
  intro i order
  induction order generalizing i with
  | nil => rfl
  | cons id rest ih =>
    unfold memReorderGo
    cases h : lastWithId tasks id with
    | some t => simpa [lastWithId_id tasks id t h] using ih (i + 1)
    | none => simpa [placeholderTodo] using ih (i + 1)

lemma memReorderGo_map_position (tasks : List Todo) :
    ∀ (i : Nat) (order : List String),
      (memReorderGo tasks i order).map Todo.position =
        (List.range' i order.length).map Int.ofNat := by
  intro i order
  induction order generalizing i with
  | nil => rfl
  | cons id rest ih =>
    unfold memReorderGo
    rw [List.length_cons, List.range'_succ]
    cases h : lastWithId tasks id with
    | some t => simpa using ih (i + 1)
    | none => simpa using ih (i + 1)

lemma mem_updateFirstDoc_of_neg (p : Doc → Bool) (f : Doc → Doc) (x : Doc)
    (l : List Doc) (hx : x ∈ l) (hp : p x = false) : x ∈ updateFirstDoc p f l := by
  induction l with
  | nil => cases hx
  | cons d ds ih =>
    unfold updateFirstDoc
    by_cases hd : p d = true
    · rw [if_pos hd]
      rcases List.mem_cons.mp hx with rfl | h'
      · rw [hd] at hp; cases hp
      · exact List.mem_cons_of_mem _ h'
    · rw [if_neg hd]
      rcases List.mem_cons.mp hx with rfl | h'
      · exact List.mem_cons_self x _
      · exact List.mem_cons_of_mem _ (ih h')

lemma updateFirstDoc_map_docId (p : Doc → Bool) (f : Doc → Doc)
    (hf : ∀ d, (f d).docId = d.docId) (l : List Doc) :
    (updateFirstDoc p f l).map Doc.docId = l.map Doc.docId := by
  induction l with
  | nil => rfl
  | cons d ds ih =>
    unfold updateFirstDoc
    by_cases hd : p d = true
    · rw [if_pos hd]; simp [hf d]
    · rw [if_neg hd]; simp [ih]

lemma mem_of_mem_updateFirstDoc_ne (id : String) (f : Doc → Doc)
    (hf : ∀ d, (f d).docId = d.docId) (x : Doc) (l : List Doc)
    (hx : x ∈ updateFirstDoc (fun d => d.docId == id) f l) (hne : x.docId ≠ id) :
    x ∈ l := by
  induction l with
  | nil => cases hx
  | cons d ds ih =>
    unfold updateFirstDoc at hx
    by_cases hd : (d.docId == id) = true
    · have hdid : d.docId = id := by simpa using hd
      rw [if_pos hd] at hx
      rcases List.mem_cons.mp hx with rfl | h'
      · exact absurd (by rw [hf d]; exact hdid) hne
      · exact List.mem_cons_of_mem _ h'
    · rw [if_neg hd] at hx
      rcases List.mem_cons.mp hx with rfl | h'
      · exact List.mem_cons_self x _
      · exact List.mem_cons_of_mem _ (ih h')

lemma updateFirstDoc_position_of_docId (id : String) (pos : Int) (l : List Doc)
    (hnd : (l.map Doc.docId).Nodup) (x : Doc)
    (hx : x ∈ updateFirstDoc (fun d => d.docId == id) (fun d => { d with position := pos }) l)
    (hid : x.docId = id) : x.position = pos := by
  induction l with
  | nil => cases hx
  | cons d ds ih =>
    simp only [List.map_cons, List.nodup_cons] at hnd
    unfold updateFirstDoc at hx
    by_cases hd : (d.docId == id) = true
    · have hdid : d.docId = id := by simpa using hd
      rw [if_pos hd] at hx
      rcases List.mem_cons.mp hx with rfl | h'
      · rfl
      · have hmem : x.docId ∈ ds.map Doc.docId := List.mem_map_of_mem Doc.docId h'
        rw [hid] at hmem
        exact absurd hmem (hdid ▸ hnd.1)
    · rw [if_neg hd] at hx
      rcases List.mem_cons.mp hx with rfl | h'
      · exact absurd (by simp [hid]) hd
      · exact ih hnd.2 h'

lemma mongoReorderGo_map_docId : ∀ (order : List String) (i : Nat) (docs : List Doc),
    (mongoReorderGo i order docs).map Doc.docId = docs.map Doc.docId := by
  intro order
  induction order with
  | nil => intro i docs; rfl
  | cons id rest ih =>
    intro i docs
    unfold mongoReorderGo
    rw [ih (i + 1), updateFirstDoc_map_docId (fun d => d.docId == id)
      (fun d => { d with position := Int.ofNat i }) (fun d => rfl)]

lemma mem_of_mem_mongoReorderGo : ∀ (order : List String) (i : Nat) (docs : List Doc)
    (x : Doc), x ∈ mongoReorderGo i order docs → x.docId ∉ order → x ∈ docs := by
  intro order
  induction order with
  | nil => intro i docs x hx _; exact hx
  | cons id rest ih =>
    intro i docs x hx hno
    rw [List.mem_cons, not_or] at hno
    unfold mongoReorderGo at hx
    exact mem_of_mem_updateFirstDoc_ne id
      (fun d => { d with position := Int.ofNat i }) (fun d => rfl) x docs
      (ih (i + 1) _ x hx hno.2) hno.1

lemma mem_mongoReorderGo_of_not_mem : ∀ (order : List String) (i : Nat) (docs : List Doc)
    (x : Doc), x ∈ docs → x.docId ∉ order → x ∈ mongoReorderGo i order docs := by
  intro order
  induction order with
  | nil => intro i docs x hx _; exact hx
  | cons id rest ih =>
    intro i docs x hx hno
    rw [List.mem_cons, not_or] at hno
    unfold mongoReorderGo
    exact ih (i + 1) _ x
      (mem_updateFirstDoc_of_neg _ _ x docs hx (by simpa using hno.1)) hno.2

lemma mongoReorderGo_position : ∀ (order : List String) (i : Nat) (docs : List Doc),
    order.Nodup → (docs.map Doc.docId).Nodup →
      ∀ (j : Nat) (hj : j < order.length), ∀ x ∈ mongoReorderGo i order docs,
        x.docId = order.get ⟨j, hj⟩ → x.position = Int.ofNat (i + j) := by
  intro order
  induction order with
  | nil => intro i docs _ _ j hj; cases hj
  | cons id rest ih =>
    intro i docs hord hnd j hj x hx hid
    rcases List.nodup_cons.mp hord with ⟨hid_nr, hrest⟩
    unfold mongoReorderGo at hx
    have hnd1 : ((updateFirstDoc (fun d => d.docId == id)
        (fun d => { d with position := Int.ofNat i }) docs).map Doc.docId).Nodup := by
      rw [updateFirstDoc_map_docId (fun d => d.docId == id)
        (fun d => { d with position := Int.ofNat i }) (fun d => rfl)]
      exact hnd
    cases j with
    | zero =>
      have hxid : x.docId = id := hid
      have hxno : x.docId ∉ rest := by rw [hxid]; exact hid_nr
      have hx1 : x ∈ updateFirstDoc (fun d => d.docId == id)
          (fun d => { d with position := Int.ofNat i }) docs :=
        mem_of_mem_mongoReorderGo rest (i + 1) _ x hx hxno
      simpa using updateFirstDoc_position_of_docId id (Int.ofNat i) docs hnd x hx1 hxid
    | succ j' =>
      have := ih (i + 1) _ hrest hnd1 j' (Nat.lt_of_succ_lt_succ hj) x hx hid
      rw [this]
      congr 1
      omega

/-- A plain unlocked, incomplete task used in concrete runs. -/
def sampleTodo (id : String) (pos : Int) : Todo :=
  { id := id, text := id, completed := false, category := "other",
    priority := "low", dueDate := none, dueTime := none, dependencies := [],
    locked := false, position := pos }

/-- A plain unlocked, incomplete document used in concrete runs. -/
def sampleDoc (id : String) (pos : Int) (stamp : Nat) : Doc :=
  { docId := id, text := id, completed := false, category := "other",
    priority := "low", dueDate := none, dueTime := none, dependencies := [],
    locked := false, position := pos, createdAt := stamp }

/-- An in-memory store holding tasks a, b, c. -/
def memABC : MemState :=
  ⟨[sampleTodo "a" 0, sampleTodo "b" 1, sampleTodo "c" 2], 3⟩

/-- A Mongo store holding docs a, b, c. -/
def mongoABC : MongoState :=
  ⟨[sampleDoc "a" 0 0, sampleDoc "b" 1 1, sampleDoc "c" 2 2], 3, 3⟩

/-- C7 (amended).  After `todo:reorder` with a duplicate-free id sequence,
every stored task whose id is `order[i]` has `position = i`, on both
backends (the durable side needs its invariant of unique `_id`s).  On the
in-memory branch the rebuilt array is exactly `order`: ids match the
sequence, positions are `0..n-1`, and an id absent from the store yields a
synthesized placeholder entry.  The durable branch, however, ignores an
absent id instead of synthesizing a placeholder (see the counterexample). -/
theorem c7_reorder_positions (order : List String) (st : MemState) (stG : MongoState)
    (hord : order.Nodup) (hnd : (stG.docs.map Doc.docId).Nodup) :
    ((memReorder order st).1.tasks.map Todo.id = order ∧
      (memReorder order st).1.tasks.map Todo.position =
        (List.range order.length).map Int.ofNat) ∧
    (∀ (j : Nat) (hj : j < order.length), ∀ d ∈ (mongoReorder order stG).1.docs,
        d.docId = order.get ⟨j, hj⟩ → d.position = Int.ofNat j) := by
  refine ⟨⟨memReorderGo_map_id st.tasks 0 order, ?_⟩, ?_⟩
  · rw [List.range_eq_range']
    exact memReorderGo_map_position st.tasks 0 order
  · intro j hj d hd hid
    simpa using mongoReorderGo_position order 0 stG.docs hord hnd j hj d hd hid

theorem c7_reorder_positions_witness :
    (memReorder ["c", "a", "b"] memABC).1.tasks.map Todo.id = ["c", "a", "b"] ∧
    (memReorder ["c", "a", "b"] memABC).1.tasks.map Todo.position = [0, 1, 2] :=
  ⟨(c7_reorder_positions ["c", "a", "b"] memABC mongoABC (by decide) (by decide)).1.1,
    (c7_reorder_positions ["c", "a", "b"] memABC mongoABC (by decide) (by decide)).1.2⟩

/-- C7 counterexample: the claim also asserts that ids absent from the store
are synthesized as empty placeholder tasks, but on the durable branch
`reorder(["x"])` against an empty store leaves the store empty — no task
with id "x" exists afterwards. -/
theorem c7_reorder_positions_cex :
    ¬ ∃ t ∈ getAllTodosMongo (mongoReorder ["x"] MongoState.empty).1, t.id = "x" := by
  decide

/-- C10 (confirmed).  The in-memory `todo:reorder` rebuilds the array from
`order` alone: the resulting ids are exactly `order` (one entry per element,
every unlisted pre-existing task dropped), while the durable branch keeps
its document set: the multiset of ids is unchanged and every doc whose id is
not listed survives untouched, old position included. -/
theorem c10_reorder_membership (order : List String) (st : MemState) (stG : MongoState) :
    ((memReorder order st).1.tasks.map Todo.id = order) ∧
    ((mongoReorder order stG).1.docs.map Doc.docId = stG.docs.map Doc.docId) ∧
    (∀ d ∈ stG.docs, d.docId ∉ order → d ∈ (mongoReorder order stG).1.docs) := by
  refine ⟨memReorderGo_map_id st.tasks 0 order,
    mongoReorderGo_map_docId order 0 stG.docs, ?_⟩
  intro d hd hno
  exact mem_mongoReorderGo_of_not_mem order 0 stG.docs d hd hno

lemma mongoRestoreDocs_length (now : Int) (b s : Nat) :
    ∀ (i : Nat) (items : List Todo),
      (mongoRestoreDocs now b s i items).length = items.length := by
  intro i items
  induction items generalizing i with
  | nil => rfl
  | cons t ts ih => simpa [mongoRestoreDocs] using ih (i + 1)

lemma mem_mongoRestoreDocs (now : Int) (b s : Nat) :
    ∀ (i : Nat) (items : List Todo) (d : Doc), d ∈ mongoRestoreDocs now b s i items →
      d.locked = false ∧ d.dependencies = [] ∧ d.dueDate = none ∧ d.dueTime = none ∧
        now + Int.ofNat i ≤ d.position ∧
        ∃ t ∈ items, d.text = t.text ∧ d.completed = t.completed ∧
          d.priority = (if t.priority = "" then "low" else t.priority) ∧
          d.category = (if t.category = "" then "other" else t.category) := by
  intro i items
  induction items generalizing i with
  | nil => intro d hd; cases hd
  | cons t ts ih =>
    intro d hd
    rcases List.mem_cons.mp hd with rfl | hd'
    · exact ⟨rfl, rfl, rfl, rfl, le_refl _,
        t, List.mem_cons_self t ts, rfl, rfl, rfl, rfl⟩
    · rcases ih (i + 1) d hd' with ⟨h1, h2, h3, h4, h5, t', ht', hrest⟩
      refine ⟨h1, h2, h3, h4, ?_, t', List.mem_cons_of_mem t ht', hrest⟩
      have hsucc : Int.ofNat (i + 1) = Int.ofNat i + 1 := rfl
      rw [hsucc] at h5
      omega

/-- C8 (amended).  `todo:restoreMany` on the in-memory branch matches the
claim: the snapshots are prepended verbatim ahead of the existing order, so
their `locked` and `priority` fields are carried over untouched.  On the
durable branch the claim fails (see the counterexample): the inserted docs
carry only text/completed/category/priority (with `t.priority || 'low'`);
`locked` is reset to the schema default `false`, `dependencies` and the due
fields are dropped, and `position` is `Date.now() + i` — at or after `now`,
i.e. appended after any task with a smaller position rather than
prepended. -/
theorem c8_restore_snapshots (items : List Todo) (st : MemState) (now : Int)
    (stG : MongoState) :
    ((memRestoreMany items st).1.tasks = items ++ st.tasks ∧
      (memRestoreMany items st).2 = [Out.replaceList (items ++ st.tasks)]) ∧
    ((mongoRestoreMany now items stG).1.docs.length = stG.docs.length + items.length ∧
      ∀ d ∈ (mongoRestoreMany now items stG).1.docs, d ∈ stG.docs ∨
        (d.locked = false ∧ d.dependencies = [] ∧ d.dueDate = none ∧ d.dueTime = none ∧
          now ≤ d.position ∧
          ∃ t ∈ items, d.text = t.text ∧ d.completed = t.completed ∧
            d.priority = (if t.priority = "" then "low" else t.priority) ∧
            d.category = (if t.category = "" then "other" else t.category))) := by
  refine ⟨⟨rfl, rfl⟩, ?_, ?_⟩
  · show (stG.docs ++ mongoRestoreDocs now stG.nextId stG.nextStamp 0 items).length = _
    rw [List.length_append, mongoRestoreDocs_length]
  · intro d hd
    rcases List.mem_append.mp hd with hd' | hd'
    · exact Or.inl hd'
    · rcases mem_mongoRestoreDocs now stG.nextId stG.nextStamp 0 items d hd' with
        ⟨h1, h2, h3, h4, h5, hex⟩
      exact Or.inr ⟨h1, h2, h3, h4, by simpa using h5, hex⟩

/-- C8 counterexample: restoring the snapshot `{id: s, locked: true,
position: 5}` at instant 100 into the store {a, b, c} (positions 0, 1, 2)
on the durable branch yields a doc with `locked = false` (not carried over)
that sorts after every existing task (position 100 — appended, not
prepended). -/
theorem c8_restore_snapshots_cex :
    (getAllTodosMongo
        (mongoRestoreMany 100 [{ sampleTodo "s" 5 with locked := true }] mongoABC).1).map
        Todo.id = ["a", "b", "c", "d_3"] ∧
    (getAllTodosMongo
        (mongoRestoreMany 100 [{ sampleTodo "s" 5 with locked := true }] mongoABC).1).map
        Todo.locked = [false, false, false, false] := by
  decide

lemma find?_prefix_cons {α : Type} (p : α → Bool) (l₁ l₂ : List α) (u : α)
    (h₁ : ∀ x ∈ l₁, p x = false) (hu : p u = true) :
    (l₁ ++ u :: l₂).find? p = some u := by
  rw [List.find?_append]
  have hnone : l₁.find? p = none :=
    List.find?_eq_none.mpr (fun x hx => by simp [h₁ x hx])
  rw [hnone, List.find?_cons_of_pos _ hu]
  rfl

lemma updateFirst_append (p : Todo → Bool) (f : Todo → Todo) (l₁ l₂ : List Todo)
    (u : Todo) (h₁ : ∀ x ∈ l₁, p x = false) (hu : p u = true) :
    updateFirst p f (l₁ ++ u :: l₂) = l₁ ++ f u :: l₂ := by
  induction l₁ with
  | nil =>
    show updateFirst p f (u :: l₂) = f u :: l₂
    unfold updateFirst
    rw [if_pos hu]
  | cons x xs ih =>
    have hx := h₁ x (List.mem_cons_self x xs)
    show updateFirst p f (x :: (xs ++ u :: l₂)) = x :: (xs ++ f u :: l₂)
    unfold updateFirst
    rw [if_neg (by simp [hx])]
    rw [ih (fun y hy => h₁ y (List.mem_cons_of_mem x hy))]

lemma updateFirstDoc_append (p : Doc → Bool) (f : Doc → Doc) (l₁ l₂ : List Doc)
    (u : Doc) (h₁ : ∀ x ∈ l₁, p x = false) (hu : p u = true) :
    updateFirstDoc p f (l₁ ++ u :: l₂) = l₁ ++ f u :: l₂ := by
  induction l₁ with
  | nil =>
    show updateFirstDoc p f (u :: l₂) = f u :: l₂
    unfold updateFirstDoc
    rw [if_pos hu]
  | cons x xs ih =>
    have hx := h₁ x (List.mem_cons_self x xs)
    show updateFirstDoc p f (x :: (xs ++ u :: l₂)) = x :: (xs ++ f u :: l₂)
    unfold updateFirstDoc
    rw [if_neg (by simp [hx])]
    rw [ih (fun y hy => h₁ y (List.mem_cons_of_mem x hy))]

lemma applyEditFieldsMem_spec (parse : String → Option String → Option Int)
    (now : Int) (p : EditPayload) (t : Todo) :
    (applyEditFieldsMem parse now p t).id = t.id ∧
    (applyEditFieldsMem parse now p t).completed = t.completed ∧
    (applyEditFieldsMem parse now p t).position = t.position ∧
    (p.text = none → (applyEditFieldsMem parse now p t).text = t.text) ∧
    (p.category = none → (applyEditFieldsMem parse now p t).category = t.category) ∧
    (p.dueDate = none → (applyEditFieldsMem parse now p t).dueDate = t.dueDate) ∧
    (p.dueTime = none → (applyEditFieldsMem parse now p t).dueTime = t.dueTime) ∧
    (p.dependencies = none →
      (applyEditFieldsMem parse now p t).dependencies = t.dependencies) ∧
    (∀ ds, p.dependencies = some ds →
      (applyEditFieldsMem parse now p t).dependencies = ds) ∧
    (applyEditFieldsMem parse now p t).priority =
      derivedPriorityKeep p.priority
        (computePriorityByDue parse p.dueDate p.dueTime now) t.priority := by
  obtain ⟨pid, ptext, pcat, ppri, pdd, pdt, pdeps⟩ := p
  cases ptext <;> cases pcat <;> cases pdd <;> cases pdt <;> cases pdeps <;>
    simp [applyEditFieldsMem]

lemma applyEditFieldsMongo_spec (parse : String → Option String → Option Int)
    (now : Int) (p : EditPayload) (d : Doc) :
    (applyEditFieldsMongo parse now p d).docId = d.docId ∧
    (applyEditFieldsMongo parse now p d).completed = d.completed ∧
    (applyEditFieldsMongo parse now p d).position = d.position ∧
    (applyEditFieldsMongo parse now p d).createdAt = d.createdAt ∧
    (p.text = none → (applyEditFieldsMongo parse now p d).text = d.text) ∧
    (p.category = none → (applyEditFieldsMongo parse now p d).category = d.category) ∧
    (p.dueDate = none → (applyEditFieldsMongo parse now p d).dueDate = d.dueDate) ∧
    (p.dueTime = none → (applyEditFieldsMongo parse now p d).dueTime = d.dueTime) ∧
    (p.dependencies = none →
      (applyEditFieldsMongo parse now p d).dependencies = d.dependencies) ∧
    (∀ ds, p.dependencies = some ds →
      (applyEditFieldsMongo parse now p d).dependencies = ds) ∧
    (applyEditFieldsMongo parse now p d).priority =
      derivedPriority p.priority (computePriorityByDue parse p.dueDate p.dueTime now) := by
  obtain ⟨pid, ptext, pcat, ppri, pdd, pdt, pdeps⟩ := p
  cases ptext <;> cases pcat <;> cases pdd <;> cases pdt <;> cases pdeps <;>
    simp [applyEditFieldsMongo]

/-- What the in-memory `todo:edit` does to the store entry it finds: the
supplied fields land, `completed`/`position` are untouched, fields absent
from the payload keep their values — except that `priority` is rebuilt as
`client || due-derived || previous || 'low'` and `locked` is recomputed
unconditionally over the updated array. -/
def EditFrameMem (parse : String → Option String → Option Int) (now : Int)
    (p : EditPayload) (l₁ l₂ : List Todo) (u : Todo) (st : MemState) : Prop :=
  ∃ u',
    (memEdit parse now p st).1.tasks = l₁ ++ u' :: l₂ ∧
    (memEdit parse now p st).2 = [Out.update u'] ∧
    u'.id = u.id ∧ u'.completed = u.completed ∧ u'.position = u.position ∧
    (p.text = none → u'.text = u.text) ∧
    (p.category = none → u'.category = u.category) ∧
    (p.dueDate = none → u'.dueDate = u.dueDate) ∧
    (p.dueTime = none → u'.dueTime = u.dueTime) ∧
    (p.dependencies = none → u'.dependencies = u.dependencies) ∧
    (∀ ds, p.dependencies = some ds → u'.dependencies = ds) ∧
    u'.priority = derivedPriorityKeep p.priority
      (computePriorityByDue parse p.dueDate p.dueTime now) u.priority ∧
    u'.locked = computeLockedForMem
      (l₁ ++ applyEditFieldsMem parse now p u :: l₂) u'.dependencies

/-- What the Mongo `todo:edit` does to the doc it finds: as the in-memory
side, except that `priority` is rebuilt as `client || due-derived || 'low'`,
discarding the stored priority entirely. -/
def EditFrameMongo (parse : String → Option String → Option Int) (now : Int)
    (p : EditPayload) (g₁ g₂ : List Doc) (w : Doc) (stG : MongoState) : Prop :=
  ∃ w',
    (mongoEdit parse now p stG).1.docs = g₁ ++ w' :: g₂ ∧
    (mongoEdit parse now p stG).2 = [Out.update (viewDoc w')] ∧
    w'.docId = w.docId ∧ w'.completed = w.completed ∧ w'.position = w.position ∧
    w'.createdAt = w.createdAt ∧
    (p.text = none → w'.text = w.text) ∧
    (p.category = none → w'.category = w.category) ∧
    (p.dueDate = none → w'.dueDate = w.dueDate) ∧
    (p.dueTime = none → w'.dueTime = w.dueTime) ∧
    (p.dependencies = none → w'.dependencies = w.dependencies) ∧
    (∀ ds, p.dependencies = some ds → w'.dependencies = ds) ∧
    w'.priority = derivedPriority p.priority
      (computePriorityByDue parse p.dueDate p.dueTime now) ∧
    w'.locked = computeLockedForMongo
      (g₁ ++ applyEditFieldsMongo parse now p w :: g₂) w'.dependencies

/-- Full characterisation of one in-memory `todo:edit` against a store split
around the first entry carrying the target id. -/
lemma memEdit_run (parse : String → Option String → Option Int) (now : Int)
    (p : EditPayload) (l₁ l₂ : List Todo) (u : Todo) (st : MemState)
    (hid : p.id ≠ "") (hm : st.tasks = l₁ ++ u :: l₂)
    (hm₁ : ∀ x ∈ l₁, x.id ≠ p.id) (hmu : u.id = p.id) :
    memEdit parse now p st =
      (⟨l₁ ++ { applyEditFieldsMem parse now p u with
          locked := (computeLockedForMem (l₁ ++ applyEditFieldsMem parse now p u :: l₂) (applyEditFieldsMem parse now p u).dependencies) } :: l₂,
          st.nextId⟩,
        [Out.update { applyEditFieldsMem parse now p u with
          locked := (computeLockedForMem (l₁ ++ applyEditFieldsMem parse now p u :: l₂) (applyEditFieldsMem parse now p u).dependencies) }]) := by
  have hvid : (applyEditFieldsMem parse now p u).id = p.id := by
    rw [(applyEditFieldsMem_spec parse now p u).1]; exact hmu
  have hfind : st.tasks.find? (fun t => t.id == p.id) = some u := by
    rw [hm]
    exact find?_prefix_cons _ l₁ l₂ u (fun x hx => by simp [hm₁ x hx]) (by simp [hmu])
  have htasks1 : updateFirst (fun t => t.id == p.id)
      (applyEditFieldsMem parse now p) st.tasks =
        l₁ ++ applyEditFieldsMem parse now p u :: l₂ := by
    rw [hm]
    exact updateFirst_append _ _ l₁ l₂ u (fun x hx => by simp [hm₁ x hx]) (by simp [hmu])
  have hfind1 : (l₁ ++ applyEditFieldsMem parse now p u :: l₂).find?
      (fun t => t.id == p.id) = some (applyEditFieldsMem parse now p u) :=
    find?_prefix_cons _ l₁ l₂ _ (fun x hx => by simp [hm₁ x hx]) (by simp [hvid])
  have htasks2 : updateFirst (fun t => t.id == p.id)
      (fun t => { t with locked := (computeLockedForMem (l₁ ++ applyEditFieldsMem parse now p u :: l₂) (applyEditFieldsMem parse now p u).dependencies) })
      (l₁ ++ applyEditFieldsMem parse now p u :: l₂) =
        l₁ ++ { applyEditFieldsMem parse now p u with
          locked := (computeLockedForMem (l₁ ++ applyEditFieldsMem parse now p u :: l₂) (applyEditFieldsMem parse now p u).dependencies) } :: l₂ :=
    updateFirst_append _ _ l₁ l₂ _ (fun x hx => by simp [hm₁ x hx]) (by simp [hvid])
  unfold memEdit
  rw [if_neg hid, hfind]
  dsimp only
  rw [htasks1, hfind1]
  dsimp only
  rw [htasks2]

/-- Full characterisation of one Mongo `todo:edit` against a collection
split around the doc carrying the target id. -/
lemma mongoEdit_run (parse : String → Option String → Option Int) (now : Int)
    (p : EditPayload) (g₁ g₂ : List Doc) (w : Doc) (stG : MongoState)
    (hid : p.id ≠ "") (hg : stG.docs = g₁ ++ w :: g₂)
    (hg₁ : ∀ x ∈ g₁, x.docId ≠ p.id) (hgw : w.docId = p.id) :
    mongoEdit parse now p stG =
      (⟨g₁ ++ { applyEditFieldsMongo parse now p w with
          locked := (computeLockedForMongo (g₁ ++ applyEditFieldsMongo parse now p w :: g₂) (applyEditFieldsMongo parse now p w).dependencies) } :: g₂,
          stG.nextId, stG.nextStamp⟩,
        [Out.update (viewDoc { applyEditFieldsMongo parse now p w with
          locked := (computeLockedForMongo (g₁ ++ applyEditFieldsMongo parse now p w :: g₂) (applyEditFieldsMongo parse now p w).dependencies) })]) := by
  have hvid : (applyEditFieldsMongo parse now p w).docId = p.id := by
    rw [(applyEditFieldsMongo_spec parse now p w).1]; exact hgw
  have hfind : stG.docs.find? (fun d => d.docId == p.id) = some w := by
    rw [hg]
    exact find?_prefix_cons _ g₁ g₂ w (fun x hx => by simp [hg₁ x hx]) (by simp [hgw])
  have hdocs1 : updateFirstDoc (fun d => d.docId == p.id)
      (applyEditFieldsMongo parse now p) stG.docs =
        g₁ ++ applyEditFieldsMongo parse now p w :: g₂ := by
    rw [hg]
    exact updateFirstDoc_append _ _ g₁ g₂ w (fun x hx => by simp [hg₁ x hx]) (by simp [hgw])
  have hfind1 : (g₁ ++ applyEditFieldsMongo parse now p w :: g₂).find?
      (fun d => d.docId == p.id) = some (applyEditFieldsMongo parse now p w) :=
    find?_prefix_cons _ g₁ g₂ _ (fun x hx => by simp [hg₁ x hx]) (by simp [hvid])
  have hdocs2 : ∀ L : Bool, updateFirstDoc (fun d => d.docId == p.id)
      (fun d => { d with locked := L })
      (g₁ ++ applyEditFieldsMongo parse now p w :: g₂) =
        g₁ ++ { applyEditFieldsMongo parse now p w with locked := L } :: g₂ :=
    fun L => updateFirstDoc_append _ _ g₁ g₂ _
      (fun x hx => by simp [hg₁ x hx]) (by simp [hvid])
  unfold mongoEdit
  rw [if_neg hid, hfind]
  dsimp only
  rw [hdocs1, hfind1]
  dsimp only
  by_cases hL : computeLockedForMongo
      (g₁ ++ applyEditFieldsMongo parse now p w :: g₂)
      (applyEditFieldsMongo parse now p w).dependencies =
        (applyEditFieldsMongo parse now p w).locked
  · rw [if_neg (by simp [hL]), hL]
    rfl
  · rw [if_pos (by simp [hL]), hdocs2]
    rfl

lemma computePriorityByDue_values (parse : String → Option String → Option Int)
    (dueDate dueTime : Option String) (now : Int) (a : String)
    (h : computePriorityByDue parse dueDate dueTime now = some a) :
    a = "high" ∨ a = "medium" := by
  unfold computePriorityByDue at h
  cases hd : jsStr dueDate with
  | none => rw [hd] at h; cases h
  | some d =>
    rw [hd] at h
    dsimp only at h
    cases hp : parse d (jsStr dueTime) with
    | none => rw [hp] at h; cases h
    | some target =>
      rw [hp] at h
      dsimp only at h
      split at h
      · exact Or.inl (Option.some.inj h).symm
      · split at h
        · exact Or.inl (Option.some.inj h).symm
        · split at h
          · exact Or.inr (Option.some.inj h).symm
          · cases h

lemma derivedPriorityKeep_client (c auto : Option String) (prev s : String)
    (h : jsStr c = some s) : derivedPriorityKeep c auto prev = s := by
  unfold derivedPriorityKeep
  rw [h]

lemma derivedPriorityKeep_auto (c auto : Option String) (prev a : String)
    (hc : jsStr c = none) (ha : jsStr auto = some a) :
    derivedPriorityKeep c auto prev = a := by
  simp [derivedPriorityKeep, hc, ha]

lemma derivedPriorityKeep_none (c auto : Option String) (prev : String)
    (hc : jsStr c = none) (ha : jsStr auto = none) :
    derivedPriorityKeep c auto prev = if prev = "" then "low" else prev := by
  simp [derivedPriorityKeep, hc, ha]

lemma derivedPriority_auto (c auto : Option String) (a : String)
    (hc : jsStr c = none) (ha : jsStr auto = some a) :
    derivedPriority c auto = a := by
  simp [derivedPriority, hc, ha]

lemma derivedPriority_none (c auto : Option String)
    (hc : jsStr c = none) (ha : jsStr auto = none) :
    derivedPriority c auto = "low" := by
  simp [derivedPriority, hc, ha]

/-- The priority the in-memory `todo:edit` leaves on the edited entry:
`client || due-derived || previous || 'low'`. -/
lemma memEdit_priority (parse : String → Option String → Option Int) (now : Int)
    (q : EditPayload) (l₁ l₂ : List Todo) (u : Todo) (st : MemState)
    (hqid : q.id ≠ "") (hsp : st.tasks = l₁ ++ u :: l₂)
    (hpre : ∀ x ∈ l₁, x.id ≠ q.id) (hu : u.id = q.id) :
    ∃ u', (memEdit parse now q st).1.tasks = l₁ ++ u' :: l₂ ∧
      u'.priority = derivedPriorityKeep q.priority
        (computePriorityByDue parse q.dueDate q.dueTime now) u.priority := by
  have hrun := memEdit_run parse now q l₁ l₂ u st hqid hsp hpre hu
  refine ⟨_, by rw [hrun], ?_⟩
  exact (applyEditFieldsMem_spec parse now q u).2.2.2.2.2.2.2.2.2

/-- The priority the Mongo `todo:edit` leaves on the edited doc:
`client || due-derived || 'low'`, the stored value discarded. -/
lemma mongoEdit_priority (parse : String → Option String → Option Int) (now : Int)
    (q : EditPayload) (g₁ g₂ : List Doc) (w : Doc) (stH : MongoState)
    (hqid : q.id ≠ "") (hsp : stH.docs = g₁ ++ w :: g₂)
    (hpre : ∀ x ∈ g₁, x.docId ≠ q.id) (hw : w.docId = q.id) :
    ∃ w', (mongoEdit parse now q stH).1.docs = g₁ ++ w' :: g₂ ∧
      w'.priority = derivedPriority q.priority
        (computePriorityByDue parse q.dueDate q.dueTime now) := by
  have hrun := mongoEdit_run parse now q g₁ g₂ w stH hqid hsp hpre hw
  refine ⟨_, by rw [hrun], ?_⟩
  exact (applyEditFieldsMongo_spec parse now q w).2.2.2.2.2.2.2.2.2.2

/-- C3 (amended).  Derived priority on `todo:add` (both backends compute it
identically; the in-memory result is the new head task, the Mongo result the
newly created doc): a truthy client-supplied priority always wins; otherwise
a task due/overdue or due within 24h derives `"high"`, within 72h
`"medium"`, and with a later, absent or unparseable due instant the priority
defaults to `"low"`.  On `todo:edit` the payload's priority and due fields
drive the same derivation on the edited entry, but the fallback differs per
branch, contrary to the claim that a priority otherwise available is kept:
when neither a client priority nor an escalation applies, the in-memory
edit keeps the stored priority (falling to `"low"` only when it is falsy)
while the Mongo edit discards the stored priority and resets to `"low"`. -/
theorem c3_add_priority_derivation (parse : String → Option String → Option Int)
    (now : Int) (p : AddPayload) (stM : MemState) (stG : MongoState) :
    (∀ s, jsStr p.priority = some s →
      (memAdd parse now p stM).1.tasks.head?.map Todo.priority = some s ∧
      (mongoAdd parse now p stG).1.docs.getLast?.map Doc.priority = some s) ∧
    (jsStr p.priority = none →
      ∀ ds target, jsStr p.dueDate = some ds → parse ds (jsStr p.dueTime) = some target →
        ((target - now ≤ dayMs →
          (memAdd parse now p stM).1.tasks.head?.map Todo.priority = some "high" ∧
          (mongoAdd parse now p stG).1.docs.getLast?.map Doc.priority = some "high") ∧
         (dayMs < target - now → target - now ≤ 3 * dayMs →
          (memAdd parse now p stM).1.tasks.head?.map Todo.priority = some "medium" ∧
          (mongoAdd parse now p stG).1.docs.getLast?.map Doc.priority = some "medium") ∧
         (3 * dayMs < target - now →
          (memAdd parse now p stM).1.tasks.head?.map Todo.priority = some "low" ∧
          (mongoAdd parse now p stG).1.docs.getLast?.map Doc.priority = some "low"))) ∧
    (jsStr p.priority = none → computePriorityByDue parse p.dueDate p.dueTime now = none →
      (memAdd parse now p stM).1.tasks.head?.map Todo.priority = some "low" ∧
      (mongoAdd parse now p stG).1.docs.getLast?.map Doc.priority = some "low") ∧
    (∀ (q : EditPayload) (l₁ l₂ : List Todo) (u : Todo) (st : MemState),
      q.id ≠ "" → st.tasks = l₁ ++ u :: l₂ → (∀ x ∈ l₁, x.id ≠ q.id) → u.id = q.id →
      ∃ u', (memEdit parse now q st).1.tasks = l₁ ++ u' :: l₂ ∧
        (∀ s, jsStr q.priority = some s → u'.priority = s) ∧
        (jsStr q.priority = none →
          ∀ a, computePriorityByDue parse q.dueDate q.dueTime now = some a →
            u'.priority = a) ∧
        (jsStr q.priority = none →
          computePriorityByDue parse q.dueDate q.dueTime now = none →
            u'.priority = (if u.priority = "" then "low" else u.priority))) ∧
    (∀ (q : EditPayload) (g₁ g₂ : List Doc) (w : Doc) (stH : MongoState),
      q.id ≠ "" → stH.docs = g₁ ++ w :: g₂ → (∀ x ∈ g₁, x.docId ≠ q.id) →
      w.docId = q.id →
      ∃ w', (mongoEdit parse now q stH).1.docs = g₁ ++ w' :: g₂ ∧
        (∀ s, jsStr q.priority = some s → w'.priority = s) ∧
        (jsStr q.priority = none →
          ∀ a, computePriorityByDue parse q.dueDate q.dueTime now = some a →
            w'.priority = a) ∧
        (jsStr q.priority = none →
          computePriorityByDue parse q.dueDate q.dueTime now = none →
            w'.priority = "low")) := by
  have hmem : (memAdd parse now p stM).1.tasks.head?.map Todo.priority =
      some (derivedPriority p.priority (computePriorityByDue parse p.dueDate p.dueTime now)) := rfl
  have hmongo : (mongoAdd parse now p stG).1.docs.getLast?.map Doc.priority =
      some (derivedPriority p.priority (computePriorityByDue parse p.dueDate p.dueTime now)) := by
    show ((stG.docs ++ [_]).getLast?).map Doc.priority = _
    rw [List.getLast?_concat]
    rfl
  refine ⟨?_, ?_, ?_, ?_, ?_⟩
  · intro s hs
    rw [hmem, hmongo, derivedPriority_client _ _ s hs]
    exact ⟨rfl, rfl⟩
  · intro hnone ds target hd hp
    rw [hmem, hmongo, derivedPriority_no_client _ _ hnone,
      computePriorityByDue_parsed parse p.dueDate p.dueTime now ds target hd hp]
    refine ⟨?_, ?_, ?_⟩
    · intro h1
      rcases le_or_lt (target - now) 0 with h0 | h0
      · rw [if_pos h0]; exact ⟨rfl, rfl⟩
      · rw [if_neg (not_le.mpr h0), if_pos h1]; exact ⟨rfl, rfl⟩
    · intro h1 h3
      rw [if_neg (by omega : ¬ target - now ≤ 0), if_neg (not_le.mpr h1), if_pos h3]
      exact ⟨rfl, rfl⟩
    · intro h3
      have hd1 : (0 : Int) < dayMs := by decide
      rw [if_neg (by simp [dayMs] at *; omega : ¬ target - now ≤ 0),
        if_neg (by simp [dayMs] at *; omega : ¬ target - now ≤ dayMs),
        if_neg (not_le.mpr h3)]
      exact ⟨rfl, rfl⟩
  · intro hnone hno
    rw [hmem, hmongo, derivedPriority_no_client _ _ hnone, hno]
    exact ⟨rfl, rfl⟩
  · intro q l₁ l₂ u st hqid hsp hpre hu
    obtain ⟨u', h1, h2⟩ := memEdit_priority parse now q l₁ l₂ u st hqid hsp hpre hu
    refine ⟨u', h1, ?_, ?_, ?_⟩
    · intro s hs
      rw [h2]
      exact derivedPriorityKeep_client _ _ _ s hs
    · intro hn a ha
      have hne : a ≠ "" := by
        rcases computePriorityByDue_values parse q.dueDate q.dueTime now a ha
          with rfl | rfl <;> decide
      rw [h2]
      exact derivedPriorityKeep_auto _ _ _ a hn (by rw [ha]; exact jsStr_some_of_ne a hne)
    · intro hn hnone
      rw [h2]
      exact derivedPriorityKeep_none _ _ _ hn (by rw [hnone]; rfl)
  · intro q g₁ g₂ w stH hqid hsp hpre hw
    obtain ⟨w', h1, h2⟩ := mongoEdit_priority parse now q g₁ g₂ w stH hqid hsp hpre hw
    refine ⟨w', h1, ?_, ?_, ?_⟩
    · intro s hs
      rw [h2]
      exact derivedPriority_client _ _ s hs
    · intro hn a ha
      have hne : a ≠ "" := by
        rcases computePriorityByDue_values parse q.dueDate q.dueTime now a ha
          with rfl | rfl <;> decide
      rw [h2]
      exact derivedPriority_auto _ _ a hn (by rw [ha]; exact jsStr_some_of_ne a hne)
    · intro hn hnone
      rw [h2]
      exact derivedPriority_none _ _ hn (by rw [hnone]; rfl)

/-- An edit payload supplying only a new text for id `b`. -/
def editTextOnlyB : EditPayload :=
  { id := "b", text := some "y", category := none, priority := none,
    dueDate := none, dueTime := none, dependencies := none }

/-- A one-doc Mongo store whose doc has priority `"medium"`. -/
def mongoOneB : MongoState := ⟨[{ sampleDoc "b" 0 0 with priority := "medium" }], 1, 1⟩

/-- C3 counterexample: an edit supplying no priority and no due fields on a
doc whose stored priority is `"medium"` resets it to `"low"` on the durable
branch — the priority that was otherwise available is not kept, refuting
the claim on its edit scope. -/
theorem c3_add_priority_derivation_cex :
    (mongoEdit parse0 0 editTextOnlyB mongoOneB).1.docs.map Doc.priority = ["low"] ∧
    mongoOneB.docs.map Doc.priority = ["medium"] := by
  decide

/-- C5 (amended).  `todo:edit` changes only the entry it targets (everything
before and after it in the store is untouched) and applies exactly the
supplied fields; `completed` and `position` are never altered.  But contrary
to the claim, `priority` is rebuilt on every edit — on the durable branch as
`client || due-derived || 'low'` (so an edit supplying neither priority nor
a due date resets a stored priority to `'low'`, see the counterexample), on
the in-memory branch as `client || due-derived || previous || 'low'` — and
`locked` is recomputed unconditionally, not only when `dependencies` is
supplied. -/
theorem c5_edit_applies_only_supplied (parse : String → Option String → Option Int)
    (now : Int) (p : EditPayload)
    (l₁ l₂ : List Todo) (u : Todo) (st : MemState)
    (g₁ g₂ : List Doc) (w : Doc) (stG : MongoState)
    (hid : p.id ≠ "")
    (hm : st.tasks = l₁ ++ u :: l₂) (hm₁ : ∀ x ∈ l₁, x.id ≠ p.id) (hmu : u.id = p.id)
    (hg : stG.docs = g₁ ++ w :: g₂) (hg₁ : ∀ x ∈ g₁, x.docId ≠ p.id)
    (hgw : w.docId = p.id) :
    EditFrameMem parse now p l₁ l₂ u st ∧ EditFrameMongo parse now p g₁ g₂ w stG := by
  constructor
  · obtain ⟨sid, scomp, spos, stext, scat, sdd, sdt, sdepn, sdeps, spri⟩ :=
      applyEditFieldsMem_spec parse now p u
    have hrun := memEdit_run parse now p l₁ l₂ u st hid hm hm₁ hmu
    refine ⟨_, by rw [hrun], by rw [hrun], ?_, ?_, ?_, ?_, ?_, ?_, ?_, ?_, ?_, ?_, rfl⟩
    · exact sid
    · exact scomp
    · exact spos
    · exact stext
    · exact scat
    · exact sdd
    · exact sdt
    · exact sdepn
    · exact sdeps
    · exact spri
  · obtain ⟨sid, scomp, spos, screat, stext, scat, sdd, sdt, sdepn, sdeps, spri⟩ :=
      applyEditFieldsMongo_spec parse now p w
    have hrun := mongoEdit_run parse now p g₁ g₂ w stG hid hg hg₁ hgw
    refine ⟨_, by rw [hrun], by rw [hrun], ?_, ?_, ?_, ?_, ?_, ?_, ?_, ?_, ?_, ?_, ?_, rfl⟩
    · exact sid
    · exact scomp
    · exact spos
    · exact screat
    · exact stext
    · exact scat
    · exact sdd
    · exact sdt
    · exact sdepn
    · exact sdeps
    · exact spri

/-- An edit payload supplying only a new text. -/
def editTextOnly : EditPayload :=
  { id := "a", text := some "x", category := none, priority := none,
    dueDate := none, dueTime := none, dependencies := none }

/-- A one-task in-memory store whose task has priority `"high"`. -/
def memOneA : MemState := ⟨[{ sampleTodo "a" 0 with priority := "high" }], 1⟩

/-- A one-doc Mongo store whose doc has priority `"high"`. -/
def mongoOneA : MongoState := ⟨[{ sampleDoc "a" 0 0 with priority := "high" }], 1, 1⟩

theorem c5_edit_applies_only_supplied_witness :
    EditFrameMem parse0 0 editTextOnly [] [] ({ sampleTodo "a" 0 with priority := "high" })
      memOneA :=
  (c5_edit_applies_only_supplied parse0 0 editTextOnly
    [] [] ({ sampleTodo "a" 0 with priority := "high" }) memOneA
    [] [] ({ sampleDoc "a" 0 0 with priority := "high" }) mongoOneA
    (by decide) rfl (by simp) rfl rfl (by simp) rfl).1

/-- C5 counterexample: on the durable branch, editing only the `text` of a
task whose stored priority is `"high"` (payload carries no priority and no
due date) resets its priority to `"low"`, so a field not named in the
payload does not keep its previous value. -/
theorem c5_edit_applies_only_supplied_cex :
    (mongoEdit parse0 0 editTextOnly mongoOneA).1.docs.map Doc.priority ≠
      mongoOneA.docs.map Doc.priority := by
  decide

/-- The `locked` flag carried by an update broadcast. -/
def updateLocked : Out → Option Bool
  | .update t => some t.locked
  | _ => none

lemma pair_transfer_mem (tasks : List Todo) (docs : List Doc)
    (h : tasks.map (fun t => (t.id, t.completed)) =
      docs.map (fun d => (d.docId, d.completed))) :
    ∀ t ∈ tasks, ∃ d ∈ docs, d.docId = t.id ∧ d.completed = t.completed := by
  intro t ht
  have hmem : (t.id, t.completed) ∈ docs.map (fun d => (d.docId, d.completed)) := by
    rw [← h]
    exact List.mem_map_of_mem _ ht
  rcases List.mem_map.mp hmem with ⟨d, hd, heq⟩
  exact ⟨d, hd, (Prod.ext_iff.mp heq).1, (Prod.ext_iff.mp heq).2⟩

lemma pair_transfer_mongo (tasks : List Todo) (docs : List Doc)
    (h : tasks.map (fun t => (t.id, t.completed)) =
      docs.map (fun d => (d.docId, d.completed))) :
    ∀ d ∈ docs, ∃ t ∈ tasks, t.id = d.docId ∧ t.completed = d.completed := by
  intro d hd
  have hmem : (d.docId, d.completed) ∈ tasks.map (fun t => (t.id, t.completed)) := by
    rw [h]
    exact List.mem_map_of_mem _ hd
  rcases List.mem_map.mp hmem with ⟨t, ht, heq⟩
  exact ⟨t, ht, (Prod.ext_iff.mp heq).1, (Prod.ext_iff.mp heq).2⟩

/-- C9 (amended).  The two storage branches are not observationally
equivalent (see the counterexample).  What does hold: over corresponding
stores — same ids and completion flags position by position, ids distinct —
the two `computeLockedFor` derivations agree on every dependency list whose
referenced ids all exist in the store; the branches only part company on
dangling references (and on the other divergences recorded at C5-C8). -/
theorem c9_backend_agreement (tasks : List Todo) (docs : List Doc) (deps : List String)
    (hcorr : tasks.map (fun t => (t.id, t.completed)) =
      docs.map (fun d => (d.docId, d.completed)))
    (hnd : (tasks.map Todo.id).Nodup)
    (hex : ∀ dep ∈ deps, ∃ t ∈ tasks, t.id = dep) :
    computeLockedForMem tasks deps = computeLockedForMongo docs deps := by
  rw [Bool.eq_iff_iff, computeLockedForMem_eq_true_iff, computeLockedForMongo_eq_true_iff]
  apply and_congr Iff.rfl
  constructor
  · rintro ⟨dep, hdep, hco⟩
    rcases hex dep hdep with ⟨t, ht, htid⟩
    have htc : t.completed = false := by
      cases hc : t.completed
      · rfl
      · have : completedOf tasks dep = true :=
          (completedOf_eq_true_iff_of_nodup tasks dep hnd).mpr ⟨t, ht, htid, hc⟩
        rw [this] at hco
        cases hco
    rcases pair_transfer_mem tasks docs hcorr t ht with ⟨d, hd, hdid, hdc⟩
    refine ⟨d, hd, ?_, ?_⟩
    · rw [hdid, htid]; exact hdep
    · rw [hdc]; exact htc
  · rintro ⟨d, hd, hdid, hdc⟩
    rcases pair_transfer_mongo tasks docs hcorr d hd with ⟨t, ht, htid, htc⟩
    refine ⟨d.docId, hdid, ?_⟩
    cases hco : completedOf tasks d.docId
    · rfl
    · rcases (completedOf_eq_true_iff_of_nodup tasks d.docId hnd).mp hco with
        ⟨t', ht', htid', hc'⟩
      have : t = t' :=
        List.inj_on_of_nodup_map hnd ht ht' (by rw [htid, htid'])
      rw [this, hc'] at htc
      rw [hdc] at htc
      cases htc

theorem c9_backend_agreement_witness :
    computeLockedForMem [sampleTodo "a" 0] ["a"] =
      computeLockedForMongo [sampleDoc "a" 0 0] ["a"] :=
  c9_backend_agreement [sampleTodo "a" 0] [sampleDoc "a" 0 0] ["a"]
    (by decide) (by decide) (by decide)

/-- C9 counterexample: the same `todo:add` (text "t", one dangling dependency
"x") against equivalent (empty) stores broadcasts a task with
`locked = true` on the in-memory branch but `locked = false` on the durable
branch — the two backends are observably inequivalent. -/
theorem c9_backend_agreement_cex :
    (memAdd parse0 0 (addPDeps "t" ["x"]) MemState.empty).2.map updateLocked ≠
      (mongoAdd parse0 0 (addPDeps "t" ["x"]) MongoState.empty).2.map updateLocked := by
  decide

/-- An edit payload that only replaces the dependency list with `[]`. -/
def editDepsEmpty : EditPayload :=
  { id := "a", text := none, category := none, priority := none,
    dueDate := none, dueTime := none, dependencies := some [] }

/-- A one-task store whose task is locked with a dangling dependency. -/
def memOneLockedZ : MemState :=
  ⟨[{ sampleTodo "a" 0 with locked := true, dependencies := ["z"] }], 1⟩

/-- The run refuting the reachable-state lock invariant: add t1, add t2
depending on it, complete t1 (t2 unlocks), then un-complete t1 — t2 stays
unlocked although its dependency is incomplete again. -/
def c2ops : List (Int × Msg) :=
  [(0, Msg.add (addP "t1")), (1, Msg.add (addPDeps "t2" ["m_0"])),
    (2, Msg.toggle "m_0"), (3, Msg.toggle "m_0")]

/-- C2 (amended).  The claimed iff does not hold of every reachable store
state (see the counterexample: toggling a completed dependency back to
incomplete leaves its dependent unlocked, and restore-many re-inserts
arbitrary `locked` flags verbatim).  `locked` is consistent exactly at the
recompute points: immediately after an in-memory `todo:add` the new task's
lock equals the recompute over the prior store — so a task added with an
empty (or absent) dependency list is unlocked — and an edit that replaces
the dependency list of an existing (possibly locked) task with `[]` leaves
that task with `locked = false`. -/
theorem c2_lock_recompute_points (parse : String → Option String → Option Int)
    (now : Int) (p : AddPayload) (q : EditPayload)
    (st st' : MemState) (l₁ l₂ : List Todo) (u : Todo)
    (hqid : q.id ≠ "") (hm : st'.tasks = l₁ ++ u :: l₂)
    (hm₁ : ∀ x ∈ l₁, x.id ≠ q.id) (hmu : u.id = q.id)
    (hdeps : q.dependencies = some []) :
    ((memAdd parse now p st).1.tasks.head? = some (memAddObj parse now p st) ∧
      ((memAddObj parse now p st).locked = true ↔
        (p.dependencies.getD [] ≠ [] ∧
          ∃ dep ∈ p.dependencies.getD [], completedOf st.tasks dep = false)) ∧
      (p.dependencies.getD [] = [] → (memAddObj parse now p st).locked = false)) ∧
    (∃ u', (memEdit parse now q st').1.tasks = l₁ ++ u' :: l₂ ∧
      u'.id = u.id ∧ u'.locked = false) := by
  refine ⟨⟨rfl, ?_, ?_⟩, ?_⟩
  · have hobj : (memAddObj parse now p st).locked =
        computeLockedForMem st.tasks (p.dependencies.getD []) := rfl
    rw [hobj]
    exact computeLockedForMem_eq_true_iff st.tasks (p.dependencies.getD [])
  · intro hempty
    have hobj : (memAddObj parse now p st).locked =
        computeLockedForMem st.tasks (p.dependencies.getD []) := rfl
    rw [hobj, hempty]
    rfl
  · obtain ⟨sid, _, _, _, _, _, _, _, sdeps, _⟩ := applyEditFieldsMem_spec parse now q u
    have hrun := memEdit_run parse now q l₁ l₂ u st' hqid hm hm₁ hmu
    have hvdeps : (applyEditFieldsMem parse now q u).dependencies = [] := sdeps [] hdeps
    refine ⟨_, by rw [hrun], ?_, ?_⟩
    · exact sid
    · show computeLockedForMem
        (l₁ ++ applyEditFieldsMem parse now q u :: l₂)
        (applyEditFieldsMem parse now q u).dependencies = false
      rw [hvdeps]
      rfl

theorem c2_lock_recompute_points_witness :
    ∃ u', (memEdit parse0 0 editDepsEmpty memOneLockedZ).1.tasks =
        [] ++ u' :: ([] : List Todo) ∧
      u'.id = ({ sampleTodo "a" 0 with locked := true, dependencies := ["z"] } : Todo).id ∧
      u'.locked = false :=
  (c2_lock_recompute_points parse0 0 (addP "t") editDepsEmpty MemState.empty
    memOneLockedZ [] [] ({ sampleTodo "a" 0 with locked := true, dependencies := ["z"] })
    (by decide) rfl (by simp) rfl rfl).2

/-- C2 counterexample: after add t1; add t2 (depending on t1); toggle t1
completed; toggle t1 back — a reachable state — task t2 has `locked = false`
although its existing referenced dependency t1 has `completed = false`,
refuting the claimed invariant. -/
theorem c2_lock_recompute_points_cex :
    ¬ (∀ t ∈ (runMem parse0 c2ops MemState.empty).tasks, (t.locked = true ↔
        ∃ u ∈ (runMem parse0 c2ops MemState.empty).tasks,
          u.id ∈ t.dependencies ∧ u.completed = false)) := by
  decide

lemma completedOf_congr (l l' : List Todo)
    (h : l.map (fun t => (t.id, t.completed)) = l'.map (fun t => (t.id, t.completed)))
    (dep : String) : completedOf l dep = completedOf l' dep := by
  induction l generalizing l' with
  | nil =>
    cases l' with
    | nil => rfl
    | cons b bs => cases h
  | cons a as ih =>
    cases l' with
    | nil => cases h
    | cons b bs =>
      simp only [List.map_cons, List.cons.injEq] at h
      have hid : a.id = b.id := (Prod.ext_iff.mp h.1).1
      have hco : a.completed = b.completed := (Prod.ext_iff.mp h.1).2
      by_cases ha : a.id = dep
      · rw [← ha, completedOf_cons_self, hid, completedOf_cons_self]
        exact hco
      · rw [completedOf_cons_ne a as dep ha,
          completedOf_cons_ne b bs dep (by rw [← hid]; exact ha), ih bs h.2]

lemma blockedAny_congr (l l' : List Todo)
    (h : l.map (fun t => (t.id, t.completed)) = l'.map (fun t => (t.id, t.completed)))
    (deps : List String) : blockedAny l deps = blockedAny l' deps := by
  unfold blockedAny
  induction deps with
  | nil => rfl
  | cons d ds ih => simp only [List.any_cons, completedOf_congr l l' h d, ih]

/-- The condition under which a dependent of the just-completed task `tid`
fires an unlock (its lock recompute, taken over the post-toggle store
`base`, comes out false while its stored flag is still true). -/
def fireMem (tid : String) (base : List Todo) (o : Todo) : Bool :=
  o.dependencies.contains tid && !(blockedAny base o.dependencies) && o.locked

/-- The store entry a dependent becomes after the unlock pass. -/
def fireUpdate (tid : String) (base : List Todo) (o : Todo) : Todo :=
  if fireMem tid base o then { o with locked := false } else o

/-- The broadcasts the unlock pass emits for one dependent. -/
def fireOuts (tid : String) (base : List Todo) (o : Todo) : List Out :=
  if fireMem tid base o then
    [Out.update { o with locked := false }, Out.reminder o.id unlockMessage]
  else []

/-- `outs` of the whole unlock pass. -/
def concatOuts (f : Todo → List Out) : List Todo → List Out
  | [] => []
  | o :: rest => f o ++ concatOuts f rest

lemma concatOuts_cons (f : Todo → List Out) (o : Todo) (rest : List Todo) :
    concatOuts f (o :: rest) = f o ++ concatOuts f rest := rfl

lemma propagateMemAux_spec (tid : String) (tasks0 : List Todo) :
    ∀ (rest done : List Todo),
      (done.reverse ++ rest).map (fun t => (t.id, t.completed)) =
        tasks0.map (fun t => (t.id, t.completed)) →
      propagateMemAux tid done rest =
        (done.reverse ++ rest.map (fireUpdate tid tasks0),
          concatOuts (fireOuts tid tasks0) rest) := by
  intro rest
  induction rest with
  | nil =>
    intro done h
    simp [propagateMemAux, concatOuts]
  | cons other rest' ih =>
    intro done h
    have hbl : blockedAny (done.reverse ++ other :: rest') other.dependencies =
        blockedAny tasks0 other.dependencies :=
      blockedAny_congr _ tasks0 h other.dependencies
    unfold propagateMemAux
    dsimp only
    rw [hbl]
    by_cases hc : other.dependencies.contains tid = true
    · rw [if_pos hc]
      by_cases hf : (!(blockedAny tasks0 other.dependencies) && other.locked) = true
      · rw [if_pos hf]
        have hfire : fireMem tid tasks0 other = true := by
          unfold fireMem
          rw [hc, Bool.true_and]
          exact hf
        have h' : (({ other with locked := false } :: done).reverse ++ rest').map
            (fun t => (t.id, t.completed)) = tasks0.map (fun t => (t.id, t.completed)) := by
          rw [List.reverse_cons, List.append_assoc]
          simpa using h
        rw [ih ({ other with locked := false } :: done) h']
        rw [List.reverse_cons, List.append_assoc, List.singleton_append,
          List.map_cons, Prod.mk.injEq]
        refine ⟨?_, ?_⟩
        · unfold fireUpdate
          rw [if_pos hfire]
        · rw [concatOuts_cons]
          unfold fireOuts
          rw [if_pos hfire]
          rfl
      · rw [if_neg hf]
        have hX : (!(blockedAny tasks0 other.dependencies) && other.locked) = false := by
          cases hval : (!(blockedAny tasks0 other.dependencies) && other.locked)
          · rfl
          · exact absurd hval hf
        have hnofire : fireMem tid tasks0 other = false := by
          unfold fireMem
          rw [hc, Bool.true_and]
          exact hX
        have h' : ((other :: done).reverse ++ rest').map (fun t => (t.id, t.completed)) =
            tasks0.map (fun t => (t.id, t.completed)) := by
          rw [List.reverse_cons, List.append_assoc]
          simpa using h
        rw [ih (other :: done) h']
        rw [List.reverse_cons, List.append_assoc, List.singleton_append,
          List.map_cons, Prod.mk.injEq]
        refine ⟨?_, ?_⟩
        · unfold fireUpdate
          rw [if_neg (by simp [hnofire])]
        · rw [concatOuts_cons]
          unfold fireOuts
          rw [if_neg (by simp [hnofire])]
          rfl
    · rw [if_neg hc]
      have hcf : other.dependencies.contains tid = false := by
        cases hval : other.dependencies.contains tid
        · rfl
        · exact absurd hval hc
      have hnofire : fireMem tid tasks0 other = false := by
        unfold fireMem
        rw [hcf]
        rfl
      have h' : ((other :: done).reverse ++ rest').map (fun t => (t.id, t.completed)) =
          tasks0.map (fun t => (t.id, t.completed)) := by
        rw [List.reverse_cons, List.append_assoc]
        simpa using h
      rw [ih (other :: done) h']
      rw [List.reverse_cons, List.append_assoc, List.singleton_append,
        List.map_cons, Prod.mk.injEq]
      refine ⟨?_, ?_⟩
      · unfold fireUpdate
        rw [if_neg (by simp [hnofire])]
      · rw [concatOuts_cons]
        unfold fireOuts
        rw [if_neg (by simp [hnofire])]
        rfl

lemma mem_updateFirst_of_neg (p : Todo → Bool) (f : Todo → Todo) (x : Todo)
    (l : List Todo) (hx : x ∈ l) (hp : p x = false) : x ∈ updateFirst p f l := by
  induction l with
  | nil => cases hx
  | cons d ds ih =>
    unfold updateFirst
    by_cases hd : p d = true
    · rw [if_pos hd]
      rcases List.mem_cons.mp hx with rfl | h'
      · rw [hd] at hp; cases hp
      · exact List.mem_cons_of_mem _ h'
    · rw [if_neg hd]
      rcases List.mem_cons.mp hx with rfl | h'
      · exact List.mem_cons_self x _
      · exact List.mem_cons_of_mem _ (ih h')

lemma updateFirst_map_id (p : Todo → Bool) (f : Todo → Todo)
    (hf : ∀ t, (f t).id = t.id) (l : List Todo) :
    (updateFirst p f l).map Todo.id = l.map Todo.id := by
  induction l with
  | nil => rfl
  | cons d ds ih =>
    unfold updateFirst
    by_cases hd : p d = true
    · rw [if_pos hd]; simp [hf d]
    · rw [if_neg hd]; simp [ih]

lemma find?_updateFirst_pos (tid : String) (f : Todo → Todo)
    (hf : ∀ t, (f t).id = t.id) (l : List Todo) (u : Todo)
    (hfind : l.find? (fun x => x.id == tid) = some u) :
    (updateFirst (fun x => x.id == tid) f l).find? (fun x => x.id == tid) = some (f u) := by
  induction l with
  | nil => cases hfind
  | cons d ds ih =>
    unfold updateFirst
    by_cases hd : (d.id == tid) = true
    · rw [@List.find?_cons_of_pos Todo (fun x => x.id == tid) d ds hd] at hfind
      rw [if_pos hd]
      rw [@List.find?_cons_of_pos Todo (fun x => x.id == tid) (f d) ds
        (by show ((f d).id == tid) = true; rw [hf d]; exact hd)]
      cases hfind
      rfl
    · rw [@List.find?_cons_of_neg Todo (fun x => x.id == tid) d ds (by simpa using hd)]
        at hfind
      rw [if_neg hd,
        @List.find?_cons_of_neg Todo (fun x => x.id == tid) d
          (updateFirst (fun x => x.id == tid) f ds) (by simpa using hd)]
      exact ih hfind

lemma find?_updateFirst_ne (tid dep : String) (hne : dep ≠ tid) (f : Todo → Todo)
    (hf : ∀ t, (f t).id = t.id) (l : List Todo) :
    (updateFirst (fun x => x.id == tid) f l).find? (fun x => x.id == dep) =
      l.find? (fun x => x.id == dep) := by
  induction l with
  | nil => rfl
  | cons d ds ih =>
    unfold updateFirst
    by_cases hd : (d.id == tid) = true
    · have hdt : d.id = tid := by simpa using hd
      have hdd : ¬ ((d.id == dep) = true) := by
        rw [hdt]
        simpa using fun h : tid = dep => hne h.symm
      rw [if_pos hd]
      rw [@List.find?_cons_of_neg Todo (fun x => x.id == dep) (f d) ds
        (by show ¬ ((f d).id == dep) = true; rw [hf d]; exact hdd)]
      rw [@List.find?_cons_of_neg Todo (fun x => x.id == dep) d ds hdd]
    · rw [if_neg hd]
      by_cases hdd : (d.id == dep) = true
      · rw [@List.find?_cons_of_pos Todo (fun x => x.id == dep) d
          (updateFirst (fun x => x.id == tid) f ds) hdd]
        rw [@List.find?_cons_of_pos Todo (fun x => x.id == dep) d ds hdd]
      · rw [@List.find?_cons_of_neg Todo (fun x => x.id == dep) d
          (updateFirst (fun x => x.id == tid) f ds) hdd]
        rw [@List.find?_cons_of_neg Todo (fun x => x.id == dep) d ds hdd]
        exact ih

lemma completedOf_updateFirst_ne (tid dep : String) (hne : dep ≠ tid)
    (f : Todo → Todo) (hf : ∀ t, (f t).id = t.id) (l : List Todo) :
    completedOf (updateFirst (fun x => x.id == tid) f l) dep = completedOf l dep := by
  unfold completedOf
  rw [find?_updateFirst_ne tid dep hne f hf l]

lemma nodup_mem_find? (l : List Todo) (B : Todo)
    (hnd : (l.map Todo.id).Nodup) (hB : B ∈ l) :
    l.find? (fun x => x.id == B.id) = some B := by
  induction l with
  | nil => cases hB
  | cons d ds ih =>
    simp only [List.map_cons, List.nodup_cons] at hnd
    by_cases hd : (d.id == B.id) = true
    · rw [@List.find?_cons_of_pos Todo (fun x => x.id == B.id) d ds hd]
      rcases List.mem_cons.mp hB with rfl | h'
      · rfl
      · have hdB : d.id = B.id := by simpa using hd
        exact absurd (hdB ▸ List.mem_map_of_mem Todo.id h') hnd.1
    · rw [@List.find?_cons_of_neg Todo (fun x => x.id == B.id) d ds hd]
      rcases List.mem_cons.mp hB with rfl | h'
      · simp at hd
      · exact ih hnd.2 h'

lemma find?_map_id_preserving (g : Todo → Todo) (hg : ∀ t, (g t).id = t.id)
    (id : String) (l : List Todo) :
    (l.map g).find? (fun x => x.id == id) = (l.find? (fun x => x.id == id)).map g := by
  induction l with
  | nil => rfl
  | cons d ds ih =>
    by_cases hd : (d.id == id) = true
    · rw [List.map_cons,
        @List.find?_cons_of_pos Todo (fun x => x.id == id) (g d) (ds.map g)
          (by show ((g d).id == id) = true; rw [hg d]; exact hd),
        @List.find?_cons_of_pos Todo (fun x => x.id == id) d ds hd]
      rfl
    · rw [List.map_cons,
        @List.find?_cons_of_neg Todo (fun x => x.id == id) (g d) (ds.map g)
          (by show ¬ ((g d).id == id) = true; rw [hg d]; exact hd),
        @List.find?_cons_of_neg Todo (fun x => x.id == id) d ds (by simpa using hd)]
      exact ih

/-- Does this output update the task with the given id? -/
def isUpdateOf (id : String) : Out → Bool
  | .update t => t.id == id
  | _ => false

/-- Is this output a reminder naming the given id? -/
def isReminderOf (id : String) : Out → Bool
  | .reminder i _ => i == id
  | _ => false

lemma fireOuts_filter_update (tid : String) (base : List Todo) (o : Todo) (id : String) :
    ((fireOuts tid base o).filter (isUpdateOf id)).length =
      if fireMem tid base o = true ∧ o.id = id then 1 else 0 := by
  unfold fireOuts
  by_cases hfo : fireMem tid base o = true
  · rw [if_pos hfo]
    by_cases hoid : o.id = id
    · rw [if_pos ⟨hfo, hoid⟩]
      simp [isUpdateOf, List.filter, hoid]
    · rw [if_neg (fun h => hoid h.2)]
      have hbeq : (o.id == id) = false := by simpa using hoid
      simp [isUpdateOf, List.filter, hbeq]
  · rw [if_neg hfo, if_neg (fun h => hfo h.1)]
    rfl

lemma fireOuts_filter_reminder (tid : String) (base : List Todo) (o : Todo) (id : String) :
    ((fireOuts tid base o).filter (isReminderOf id)).length =
      if fireMem tid base o = true ∧ o.id = id then 1 else 0 := by
  unfold fireOuts
  by_cases hfo : fireMem tid base o = true
  · rw [if_pos hfo]
    by_cases hoid : o.id = id
    · rw [if_pos ⟨hfo, hoid⟩]
      simp [isReminderOf, isUpdateOf, List.filter, hoid]
    · rw [if_neg (fun h => hoid h.2)]
      have hbeq : (o.id == id) = false := by simpa using hoid
      simp [isReminderOf, isUpdateOf, List.filter, hbeq]
  · rw [if_neg hfo, if_neg (fun h => hfo h.1)]
    rfl

lemma concatOuts_filter_length (q : Out → Bool) (f : Todo → List Out) :
    ∀ l : List Todo, ((concatOuts f l).filter q).length =
      (l.map (fun o => ((f o).filter q).length)).sum := by
  intro l
  induction l with
  | nil => rfl
  | cons o rest ih =>
    rw [concatOuts_cons, List.filter_append, List.length_append, ih,
      List.map_cons, List.sum_cons]

lemma concatOuts_fire_count_one (tid : String) (base : List Todo) (id : String)
    (qf : Out → Bool)
    (hq : ∀ o, ((fireOuts tid base o).filter qf).length =
      if fireMem tid base o = true ∧ o.id = id then 1 else 0) :
    ∀ (l : List Todo), (l.map Todo.id).Nodup →
      ∀ B1 ∈ l, B1.id = id → fireMem tid base B1 = true →
      ((concatOuts (fireOuts tid base) l).filter qf).length = 1 := by
  intro l
  induction l with
  | nil => intro _ B1 hB1; cases hB1
  | cons o rest ih =>
    intro hnd B1 hB1 hBid hfire
    simp only [List.map_cons, List.nodup_cons] at hnd
    rw [concatOuts_cons, List.filter_append, List.length_append]
    rcases List.mem_cons.mp hB1 with rfl | hB1'
    · rw [hq B1, if_pos ⟨hfire, hBid⟩]
      have hzero : ((concatOuts (fireOuts tid base) rest).filter qf).length = 0 := by
        rw [concatOuts_filter_length]
        apply List.sum_eq_zero
        intro n hn
        rcases List.mem_map.mp hn with ⟨o', ho', rfl⟩
        rw [hq o']
        rw [if_neg ?_]
        rintro ⟨_, hoid⟩
        exact hnd.1 (by rw [hBid, ← hoid]; exact List.mem_map_of_mem Todo.id ho')
      rw [hzero]
    · have hoid : o.id ≠ id := by
        intro h
        exact hnd.1 (by rw [← h] at hBid; rw [← hBid]; exact List.mem_map_of_mem Todo.id hB1')
      rw [hq o, if_neg (fun h => hoid h.2), ih hnd.2 B1 hB1' hBid hfire]

lemma concatOuts_fire_count_zero (tid : String) (base : List Todo) (id : String)
    (qf : Out → Bool)
    (hq : ∀ o, ((fireOuts tid base o).filter qf).length =
      if fireMem tid base o = true ∧ o.id = id then 1 else 0)
    (l : List Todo) (h : ∀ o ∈ l, o.id = id → fireMem tid base o = false) :
    ((concatOuts (fireOuts tid base) l).filter qf).length = 0 := by
  rw [concatOuts_filter_length]
  apply List.sum_eq_zero
  intro n hn
  rcases List.mem_map.mp hn with ⟨o', ho', rfl⟩
  rw [hq o']
  rw [if_neg ?_]
  rintro ⟨hf, hoid⟩
  rw [h o' ho' hoid] at hf
  cases hf

lemma memToggle_run (st : MemState) (T : Todo)
    (hTid : T.id ≠ "")
    (hfindT : st.tasks.find? (fun x => x.id == T.id) = some T)
    (hTnc : T.completed = false) :
    memToggle T.id st =
      (⟨(updateFirst (fun x => x.id == T.id)
            (fun x => { x with completed := ! x.completed }) st.tasks).map
          (fireUpdate T.id (updateFirst (fun x => x.id == T.id)
            (fun x => { x with completed := ! x.completed }) st.tasks)),
          st.nextId⟩,
        Out.update { T with completed := true } ::
          concatOuts
            (fireOuts T.id (updateFirst (fun x => x.id == T.id)
              (fun x => { x with completed := ! x.completed }) st.tasks))
            (updateFirst (fun x => x.id == T.id)
              (fun x => { x with completed := ! x.completed }) st.tasks)) := by
  unfold memToggle
  rw [if_neg hTid, hfindT]
  dsimp only
  rw [hTnc]
  simp only [Bool.not_false, if_true]
  rw [propagateMemAux_spec T.id
    (updateFirst (fun x => x.id == T.id)
      (fun x => { x with completed := ! x.completed }) st.tasks)
    (updateFirst (fun x => x.id == T.id)
      (fun x => { x with completed := ! x.completed }) st.tasks) [] (by simp)]
  simp

lemma filter_cons_false (q : Out → Bool) (a : Out) (l : List Out) (h : q a = false) :
    (a :: l).filter q = l.filter q := by
  simp [List.filter_cons, h]

lemma filter_all_completed_congr (deps : List String) :
    ∀ (l l' : List Doc),
      l.map (fun d => (d.docId, d.completed)) = l'.map (fun d => (d.docId, d.completed)) →
      (l.filter (fun d => deps.contains d.docId)).all (·.completed) =
        (l'.filter (fun d => deps.contains d.docId)).all (·.completed) := by
  intro l
  induction l with
  | nil =>
    intro l' h
    cases l' with
    | nil => rfl
    | cons b bs => cases h
  | cons a as ih =>
    intro l' h
    cases l' with
    | nil => cases h
    | cons b bs =>
      simp only [List.map_cons, List.cons.injEq] at h
      have hid : a.docId = b.docId := (Prod.ext_iff.mp h.1).1
      have hco : a.completed = b.completed := (Prod.ext_iff.mp h.1).2
      by_cases hc : deps.contains a.docId = true
      · simp only [List.filter_cons]
        rw [if_pos hc, if_pos (show deps.contains b.docId = true by rw [← hid]; exact hc),
          List.all_cons, List.all_cons, hco, ih bs h.2]
      · simp only [List.filter_cons]
        rw [if_neg hc, if_neg (show ¬ deps.contains b.docId = true by rw [← hid]; exact hc),
          ih bs h.2]

lemma computeLockedForMongo_congr (l l' : List Doc)
    (h : l.map (fun d => (d.docId, d.completed)) = l'.map (fun d => (d.docId, d.completed)))
    (deps : List String) :
    computeLockedForMongo l deps = computeLockedForMongo l' deps := by
  unfold computeLockedForMongo
  rw [filter_all_completed_congr deps l l' h]

/-- The condition under which the Mongo dependent loop fires an unlock for a
fetched dependent (its recompute over the live collection — which agrees
with the snapshot on ids and completion flags — comes out false while its
stored flag is still true). -/
def fireMongo (base : List Doc) (d : Doc) : Bool :=
  !(computeLockedForMongo base d.dependencies) && d.locked

/-- The broadcasts the Mongo unlock pass emits for one dependent. -/
def fireOutsMongo (base : List Doc) (d : Doc) : List Out :=
  if fireMongo base d then
    [Out.update { viewDoc d with locked := false }, Out.reminder d.docId unlockMessage]
  else []

/-- Concatenated outputs over the dependents snapshot. -/
def concatOutsDoc (f : Doc → List Out) : List Doc → List Out
  | [] => []
  | d :: rest => f d ++ concatOutsDoc f rest

lemma concatOutsDoc_cons (f : Doc → List Out) (d : Doc) (rest : List Doc) :
    concatOutsDoc f (d :: rest) = f d ++ concatOutsDoc f rest := rfl

lemma updateFirstDoc_map_proj (p : Doc → Bool) (f : Doc → Doc)
    (hf : ∀ d, (f d).docId = d.docId ∧ (f d).completed = d.completed) (l : List Doc) :
    (updateFirstDoc p f l).map (fun d => (d.docId, d.completed)) =
      l.map (fun d => (d.docId, d.completed)) := by
  induction l with
  | nil => rfl
  | cons d ds ih =>
    unfold updateFirstDoc
    by_cases hd : p d = true
    · rw [if_pos hd]
      simp [(hf d).1, (hf d).2]
    · rw [if_neg hd]
      simp [ih]

lemma propagateMongoAux_spec (tid : String) (docs1 : List Doc) :
    ∀ (ds docs : List Doc),
      docs.map (fun d => (d.docId, d.completed)) =
        docs1.map (fun d => (d.docId, d.completed)) →
      (propagateMongoAux tid docs ds).2 = concatOutsDoc (fireOutsMongo docs1) ds ∧
      (propagateMongoAux tid docs ds).1.map (fun d => (d.docId, d.completed)) =
        docs1.map (fun d => (d.docId, d.completed)) := by
  intro ds
  induction ds with
  | nil =>
    intro docs h
    exact ⟨rfl, h⟩
  | cons dep rest ih =>
    intro docs h
    have hcl : computeLockedForMongo docs dep.dependencies =
        computeLockedForMongo docs1 dep.dependencies :=
      computeLockedForMongo_congr docs docs1 h dep.dependencies
    unfold propagateMongoAux
    dsimp only
    rw [hcl]
    by_cases hf : (!(computeLockedForMongo docs1 dep.dependencies) && dep.locked) = true
    · rw [if_pos hf]
      have hfire : fireMongo docs1 dep = true := hf
      have h' : (updateFirstDoc (fun d => d.docId == dep.docId)
          (fun d => { d with locked := false }) docs).map (fun d => (d.docId, d.completed)) =
            docs1.map (fun d => (d.docId, d.completed)) := by
        rw [updateFirstDoc_map_proj (fun d => d.docId == dep.docId)
          (fun d => { d with locked := false }) (fun d => ⟨rfl, rfl⟩) docs]
        exact h
      rcases ih _ h' with ⟨houts, hproj⟩
      refine ⟨?_, hproj⟩
      rw [houts, concatOutsDoc_cons]
      unfold fireOutsMongo
      rw [if_pos hfire]
      rfl
    · rw [if_neg hf]
      have hnofire : fireMongo docs1 dep = false := by
        cases hval : fireMongo docs1 dep
        · rfl
        · exact absurd hval hf
      rcases ih _ h with ⟨houts, hproj⟩
      refine ⟨?_, hproj⟩
      rw [houts, concatOutsDoc_cons]
      unfold fireOutsMongo
      rw [if_neg (by simp [hnofire])]
      rfl

lemma find?_updateFirstDoc_pos (tid : String) (f : Doc → Doc)
    (hf : ∀ d, (f d).docId = d.docId) (l : List Doc) (u : Doc)
    (hfind : l.find? (fun x => x.docId == tid) = some u) :
    (updateFirstDoc (fun x => x.docId == tid) f l).find? (fun x => x.docId == tid) =
      some (f u) := by
  induction l with
  | nil => cases hfind
  | cons d ds ih =>
    unfold updateFirstDoc
    by_cases hd : (d.docId == tid) = true
    · rw [@List.find?_cons_of_pos Doc (fun x => x.docId == tid) d ds hd] at hfind
      rw [if_pos hd]
      rw [@List.find?_cons_of_pos Doc (fun x => x.docId == tid) (f d) ds
        (by show ((f d).docId == tid) = true; rw [hf d]; exact hd)]
      cases hfind
      rfl
    · rw [@List.find?_cons_of_neg Doc (fun x => x.docId == tid) d ds (by simpa using hd)]
        at hfind
      rw [if_neg hd,
        @List.find?_cons_of_neg Doc (fun x => x.docId == tid) d
          (updateFirstDoc (fun x => x.docId == tid) f ds) (by simpa using hd)]
      exact ih hfind

lemma fireOutsMongo_filter_update (base : List Doc) (d : Doc) (id : String) :
    ((fireOutsMongo base d).filter (isUpdateOf id)).length =
      if fireMongo base d = true ∧ d.docId = id then 1 else 0 := by
  unfold fireOutsMongo
  by_cases hfo : fireMongo base d = true
  · rw [if_pos hfo]
    by_cases hoid : d.docId = id
    · rw [if_pos ⟨hfo, hoid⟩]
      simp [isUpdateOf, viewDoc, List.filter, hoid]
    · rw [if_neg (fun h => hoid h.2)]
      have hbeq : (d.docId == id) = false := by simpa using hoid
      simp [isUpdateOf, viewDoc, List.filter, hbeq]
  · rw [if_neg hfo, if_neg (fun h => hfo h.1)]
    rfl

lemma fireOutsMongo_filter_reminder (base : List Doc) (d : Doc) (id : String) :
    ((fireOutsMongo base d).filter (isReminderOf id)).length =
      if fireMongo base d = true ∧ d.docId = id then 1 else 0 := by
  unfold fireOutsMongo
  by_cases hfo : fireMongo base d = true
  · rw [if_pos hfo]
    by_cases hoid : d.docId = id
    · rw [if_pos ⟨hfo, hoid⟩]
      simp [isReminderOf, isUpdateOf, viewDoc, List.filter, hoid]
    · rw [if_neg (fun h => hoid h.2)]
      have hbeq : (d.docId == id) = false := by simpa using hoid
      simp [isReminderOf, isUpdateOf, viewDoc, List.filter, hbeq]
  · rw [if_neg hfo, if_neg (fun h => hfo h.1)]
    rfl

lemma concatOutsDoc_filter_length (q : Out → Bool) (f : Doc → List Out) :
    ∀ l : List Doc, ((concatOutsDoc f l).filter q).length =
      (l.map (fun o => ((f o).filter q).length)).sum := by
  intro l
  induction l with
  | nil => rfl
  | cons o rest ih =>
    rw [concatOutsDoc_cons, List.filter_append, List.length_append, ih,
      List.map_cons, List.sum_cons]

lemma concatOutsDoc_fire_count_one (base : List Doc) (id : String)
    (qf : Out → Bool)
    (hq : ∀ d, ((fireOutsMongo base d).filter qf).length =
      if fireMongo base d = true ∧ d.docId = id then 1 else 0) :
    ∀ (l : List Doc), (l.map Doc.docId).Nodup →
      ∀ B1 ∈ l, B1.docId = id → fireMongo base B1 = true →
      ((concatOutsDoc (fireOutsMongo base) l).filter qf).length = 1 := by
  intro l
  induction l with
  | nil => intro _ B1 hB1; cases hB1
  | cons o rest ih =>
    intro hnd B1 hB1 hBid hfire
    simp only [List.map_cons, List.nodup_cons] at hnd
    rw [concatOutsDoc_cons, List.filter_append, List.length_append]
    rcases List.mem_cons.mp hB1 with rfl | hB1'
    · rw [hq B1, if_pos ⟨hfire, hBid⟩]
      have hzero : ((concatOutsDoc (fireOutsMongo base) rest).filter qf).length = 0 := by
        rw [concatOutsDoc_filter_length]
        apply List.sum_eq_zero
        intro n hn
        rcases List.mem_map.mp hn with ⟨o', ho', rfl⟩
        rw [hq o']
        rw [if_neg ?_]
        rintro ⟨_, hoid⟩
        exact hnd.1 (by rw [hBid, ← hoid]; exact List.mem_map_of_mem Doc.docId ho')
      rw [hzero]
    · have hoid : o.docId ≠ id := by
        intro h
        exact hnd.1
          (by rw [← h] at hBid; rw [← hBid]; exact List.mem_map_of_mem Doc.docId hB1')
      rw [hq o, if_neg (fun h => hoid h.2), ih hnd.2 B1 hB1' hBid hfire]

lemma concatOutsDoc_fire_count_zero (base : List Doc) (id : String)
    (qf : Out → Bool)
    (hq : ∀ d, ((fireOutsMongo base d).filter qf).length =
      if fireMongo base d = true ∧ d.docId = id then 1 else 0)
    (l : List Doc) (h : ∀ d ∈ l, d.docId = id → fireMongo base d = false) :
    ((concatOutsDoc (fireOutsMongo base) l).filter qf).length = 0 := by
  rw [concatOutsDoc_filter_length]
  apply List.sum_eq_zero
  intro n hn
  rcases List.mem_map.mp hn with ⟨o', ho', rfl⟩
  rw [hq o']
  rw [if_neg ?_]
  rintro ⟨hf, hoid⟩
  rw [h o' ho' hoid] at hf
  cases hf

lemma nodup_mem_find?_doc (l : List Doc) (B : Doc)
    (hnd : (l.map Doc.docId).Nodup) (hB : B ∈ l) :
    l.find? (fun x => x.docId == B.docId) = some B := by
  induction l with
  | nil => cases hB
  | cons d ds ih =>
    simp only [List.map_cons, List.nodup_cons] at hnd
    by_cases hd : (d.docId == B.docId) = true
    · rw [@List.find?_cons_of_pos Doc (fun x => x.docId == B.docId) d ds hd]
      rcases List.mem_cons.mp hB with rfl | h'
      · rfl
      · have hdB : d.docId = B.docId := by simpa using hd
        exact absurd (hdB ▸ List.mem_map_of_mem Doc.docId h') hnd.1
    · rw [@List.find?_cons_of_neg Doc (fun x => x.docId == B.docId) d ds hd]
      rcases List.mem_cons.mp hB with rfl | h'
      · simp at hd
      · exact ih hnd.2 h'

lemma nodup_filter_docIds (p : Doc → Bool) (l : List Doc)
    (h : (l.map Doc.docId).Nodup) : ((l.filter p).map Doc.docId).Nodup :=
  List.Nodup.sublist (List.Sublist.map Doc.docId (List.filter_sublist l)) h

lemma unlocked_witness_create (id : String) :
    ∀ l : List Doc, (∃ e ∈ l, e.docId = id) →
      ∃ e ∈ updateFirstDoc (fun d => d.docId == id)
        (fun d => { d with locked := false }) l, e.docId = id ∧ e.locked = false := by
  intro l
  induction l with
  | nil => rintro ⟨e, he, _⟩; cases he
  | cons d ds ih =>
    rintro ⟨e, he, heid⟩
    unfold updateFirstDoc
    by_cases hd : (d.docId == id) = true
    · rw [if_pos hd]
      exact ⟨{ d with locked := false }, List.mem_cons_self _ _, by simpa using hd, rfl⟩
    · rw [if_neg hd]
      rcases List.mem_cons.mp he with rfl | h'
      · exact absurd (by simpa using heid) hd
      · rcases ih ⟨e, h', heid⟩ with ⟨e', he', hp⟩
        exact ⟨e', List.mem_cons_of_mem _ he', hp⟩

lemma unlocked_witness_preserved (id : String) (p : Doc → Bool) :
    ∀ l : List Doc, (∃ e ∈ l, e.docId = id ∧ e.locked = false) →
      ∃ e ∈ updateFirstDoc p (fun d => { d with locked := false }) l,
        e.docId = id ∧ e.locked = false := by
  intro l
  induction l with
  | nil => rintro ⟨e, he, _⟩; cases he
  | cons d ds ih =>
    rintro ⟨e, he, heid, helk⟩
    unfold updateFirstDoc
    by_cases hd : p d = true
    · rw [if_pos hd]
      rcases List.mem_cons.mp he with rfl | h'
      · exact ⟨{ e with locked := false }, List.mem_cons_self _ _, heid, rfl⟩
      · exact ⟨e, List.mem_cons_of_mem _ h', heid, helk⟩
    · rw [if_neg hd]
      rcases List.mem_cons.mp he with rfl | h'
      · exact ⟨e, List.mem_cons_self _ _, heid, helk⟩
      · rcases ih ⟨e, h', heid, helk⟩ with ⟨e', he', hp⟩
        exact ⟨e', List.mem_cons_of_mem _ he', hp⟩

lemma propagateMongoAux_unlocked (tid id : String) :
    ∀ (ds docs : List Doc), (∃ e ∈ docs, e.docId = id ∧ e.locked = false) →
      ∃ e ∈ (propagateMongoAux tid docs ds).1, e.docId = id ∧ e.locked = false := by
  intro ds
  induction ds with
  | nil => intro docs hex; exact hex
  | cons dep rest ih =>
    intro docs hex
    unfold propagateMongoAux
    dsimp only
    by_cases hc : (!computeLockedForMongo docs dep.dependencies && dep.locked) = true
    · rw [if_pos hc]
      exact ih _ (unlocked_witness_preserved id (fun d => d.docId == dep.docId) docs hex)
    · rw [if_neg hc]
      exact ih docs hex

lemma propagateMongoAux_fires_unlock (tid id : String) (docs1 : List Doc) :
    ∀ (ds docs : List Doc),
      docs.map (fun d => (d.docId, d.completed)) =
        docs1.map (fun d => (d.docId, d.completed)) →
      id ∈ docs.map Doc.docId →
      (∃ Bd ∈ ds, Bd.docId = id ∧ fireMongo docs1 Bd = true) →
      ∃ e ∈ (propagateMongoAux tid docs ds).1, e.docId = id ∧ e.locked = false := by
  intro ds
  induction ds with
  | nil => rintro docs _ _ ⟨Bd, hBd, _⟩; cases hBd
  | cons dep rest ih =>
    rintro docs hproj hid ⟨Bd, hBdmem, hBdid, hBdfire⟩
    have hcl : computeLockedForMongo docs dep.dependencies =
        computeLockedForMongo docs1 dep.dependencies :=
      computeLockedForMongo_congr docs docs1 hproj dep.dependencies
    unfold propagateMongoAux
    dsimp only
    rw [hcl]
    rcases List.mem_cons.mp hBdmem with rfl | hBdrest
    · rw [if_pos (show (!computeLockedForMongo docs1 Bd.dependencies && Bd.locked) = true
        from hBdfire)]
      rw [hBdid]
      rcases List.mem_map.mp hid with ⟨e, he, heid⟩
      exact propagateMongoAux_unlocked tid id rest _
        (unlocked_witness_create id docs ⟨e, he, heid⟩)
    · by_cases hc : (!computeLockedForMongo docs1 dep.dependencies && dep.locked) = true
      · rw [if_pos hc]
        have hproj' : (updateFirstDoc (fun d => d.docId == dep.docId)
            (fun d => { d with locked := false }) docs).map (fun d => (d.docId, d.completed)) =
              docs1.map (fun d => (d.docId, d.completed)) := by
          rw [updateFirstDoc_map_proj (fun d => d.docId == dep.docId)
            (fun d => { d with locked := false }) (fun d => ⟨rfl, rfl⟩) docs]
          exact hproj
        have hid' : id ∈ (updateFirstDoc (fun d => d.docId == dep.docId)
            (fun d => { d with locked := false }) docs).map Doc.docId := by
          rw [updateFirstDoc_map_docId (fun d => d.docId == dep.docId)
            (fun d => { d with locked := false }) (fun d => rfl) docs]
          exact hid
        exact ih _ hproj' hid' ⟨Bd, hBdrest, hBdid, hBdfire⟩
      · rw [if_neg hc]
        exact ih docs hproj hid ⟨Bd, hBdrest, hBdid, hBdfire⟩

lemma mongoToggle_run (st : MongoState) (Td : Doc)
    (hTid : Td.docId ≠ "")
    (hfind : st.docs.find? (fun d => d.docId == Td.docId) = some Td)
    (hTnc : Td.completed = false) :
    mongoToggle Td.docId st =
      (⟨(propagateMongoAux Td.docId
            (updateFirstDoc (fun d => d.docId == Td.docId)
              (fun d => { d with completed := ! d.completed }) st.docs)
            ((updateFirstDoc (fun d => d.docId == Td.docId)
              (fun d => { d with completed := ! d.completed }) st.docs).filter
              (fun d => d.dependencies.contains Td.docId))).1,
          st.nextId, st.nextStamp⟩,
        Out.update (viewDoc { Td with completed := true }) ::
          (propagateMongoAux Td.docId
            (updateFirstDoc (fun d => d.docId == Td.docId)
              (fun d => { d with completed := ! d.completed }) st.docs)
            ((updateFirstDoc (fun d => d.docId == Td.docId)
              (fun d => { d with completed := ! d.completed }) st.docs).filter
              (fun d => d.dependencies.contains Td.docId))).2) := by
  unfold mongoToggle
  rw [if_neg hTid, hfind]
  dsimp only
  rw [hTnc]
  simp only [Bool.not_false, if_true]

/-- C4 (confirmed, both branches).  Toggling an incomplete task T to
completed broadcasts T's update first; a task B that is locked and whose
only blocking dependency is T gets exactly one update broadcast and exactly
one reminder broadcast, and ends unlocked in the store; no update or
reminder is emitted for any other task that was already unlocked or whose
lock recompute still blocks; the Mongo branch behaves the same for its
sole-blocked dependent (head update, one update and one reminder for B,
B's doc saved unlocked); and on either branch toggling a completed task
back to not-completed emits only that task's own update — no propagation. -/
theorem c4_toggle_unlock_propagation (st : MemState) (T B : Todo)
    (hnd : (st.tasks.map Todo.id).Nodup)
    (hTid : T.id ≠ "") (hT : T ∈ st.tasks) (hTnc : T.completed = false)
    (hB : B ∈ st.tasks) (hne : B.id ≠ T.id)
    (hBT : T.id ∈ B.dependencies) (hBlocked : B.locked = true)
    (hsole : ∀ dep ∈ B.dependencies, dep ≠ T.id → completedOf st.tasks dep = true) :
    (memToggle T.id st).2.head? = some (Out.update { T with completed := true }) ∧
    ((memToggle T.id st).2.filter (isUpdateOf B.id)).length = 1 ∧
    ((memToggle T.id st).2.filter (isReminderOf B.id)).length = 1 ∧
    (memToggle T.id st).1.tasks.find? (fun x => x.id == B.id) =
      some { B with locked := false } ∧
    (∀ X ∈ st.tasks, X.id ≠ T.id →
      (X.locked = false ∨ blockedAny (updateFirst (fun x => x.id == T.id)
        (fun x => { x with completed := ! x.completed }) st.tasks) X.dependencies = true) →
      ((memToggle T.id st).2.filter (isUpdateOf X.id)).length = 0 ∧
      ((memToggle T.id st).2.filter (isReminderOf X.id)).length = 0) ∧
    (∀ (id : String) (t : Todo) (stX : MemState), id ≠ "" →
      stX.tasks.find? (fun x => x.id == id) = some t → t.completed = true →
      (memToggle id stX).2 = [Out.update { t with completed := false }]) ∧
    (∀ (stG : MongoState) (Td Bd : Doc),
      (stG.docs.map Doc.docId).Nodup → Td.docId ≠ "" → Td ∈ stG.docs →
      Td.completed = false → Bd ∈ stG.docs → Bd.docId ≠ Td.docId →
      Td.docId ∈ Bd.dependencies → Bd.locked = true →
      (∀ d ∈ stG.docs, d.docId ∈ Bd.dependencies → d.docId ≠ Td.docId →
        d.completed = true) →
      (mongoToggle Td.docId stG).2.head? =
        some (Out.update (viewDoc { Td with completed := true })) ∧
      ((mongoToggle Td.docId stG).2.filter (isUpdateOf Bd.docId)).length = 1 ∧
      ((mongoToggle Td.docId stG).2.filter (isReminderOf Bd.docId)).length = 1 ∧
      ∃ e ∈ (mongoToggle Td.docId stG).1.docs, e.docId = Bd.docId ∧ e.locked = false) ∧
    (∀ (id : String) (d : Doc) (stX : MongoState), id ≠ "" →
      stX.docs.find? (fun x => x.docId == id) = some d → d.completed = true →
      (mongoToggle id stX).2 = [Out.update (viewDoc { d with completed := false })]) := by
  have hfindT : st.tasks.find? (fun x => x.id == T.id) = some T :=
    nodup_mem_find? st.tasks T hnd hT
  have hrun := memToggle_run st T hTid hfindT hTnc
  have hnodup1 : ((updateFirst (fun x => x.id == T.id)
      (fun x => { x with completed := ! x.completed }) st.tasks).map Todo.id).Nodup := by
    rw [updateFirst_map_id (fun x => x.id == T.id)
      (fun x => { x with completed := ! x.completed }) (fun t => rfl)]
    exact hnd
  have hBmem1 : B ∈ updateFirst (fun x => x.id == T.id)
      (fun x => { x with completed := ! x.completed }) st.tasks :=
    mem_updateFirst_of_neg _ _ B st.tasks hB (by simpa using hne)
  have hcompT : completedOf (updateFirst (fun x => x.id == T.id)
      (fun x => { x with completed := ! x.completed }) st.tasks) T.id = true := by
    unfold completedOf
    rw [find?_updateFirst_pos T.id
      (fun x => { x with completed := ! x.completed }) (fun t => rfl) st.tasks T hfindT]
    show (!T.completed) = true
    rw [hTnc]
    rfl
  have hblB : blockedAny (updateFirst (fun x => x.id == T.id)
      (fun x => { x with completed := ! x.completed }) st.tasks) B.dependencies = false := by
    unfold blockedAny
    rw [List.any_eq_false]
    intro dep hdep
    by_cases hdT : dep = T.id
    · subst hdT
      simp [hcompT]
    · rw [completedOf_updateFirst_ne T.id dep hdT
        (fun x => { x with completed := ! x.completed }) (fun t => rfl) st.tasks,
        hsole dep hdep hdT]
      simp
  have hfireB : fireMem T.id (updateFirst (fun x => x.id == T.id)
      (fun x => { x with completed := ! x.completed }) st.tasks) B = true := by
    unfold fireMem
    rw [hblB, hBlocked]
    have hcont : B.dependencies.contains T.id = true := by simpa using hBT
    rw [hcont]
    rfl
  have hgid : ∀ t, (fireUpdate T.id (updateFirst (fun x => x.id == T.id)
      (fun x => { x with completed := ! x.completed }) st.tasks) t).id = t.id := by
    intro t
    unfold fireUpdate
    split <;> rfl
  have hheadU : ∀ X : String, X ≠ T.id →
      (isUpdateOf X (Out.update { T with completed := true })) = false := by
    intro X hX
    show (T.id == X) = false
    simpa using fun h : T.id = X => hX h.symm
  refine ⟨?_, ?_, ?_, ?_, ?_, ?_, ?_, ?_⟩
  · rw [hrun]
    rfl
  · rw [hrun]
    rw [filter_cons_false (isUpdateOf B.id) _ _ (hheadU B.id hne)]
    exact concatOuts_fire_count_one T.id _ B.id (isUpdateOf B.id)
      (fun o => fireOuts_filter_update T.id _ o B.id) _ hnodup1 B hBmem1 rfl hfireB
  · rw [hrun]
    rw [filter_cons_false (isReminderOf B.id)
      (Out.update { T with completed := true }) _ rfl]
    exact concatOuts_fire_count_one T.id _ B.id (isReminderOf B.id)
      (fun o => fireOuts_filter_reminder T.id _ o B.id) _ hnodup1 B hBmem1 rfl hfireB
  · rw [hrun]
    show ((updateFirst (fun x => x.id == T.id)
        (fun x => { x with completed := ! x.completed }) st.tasks).map
      (fireUpdate T.id _)).find? (fun x => x.id == B.id) = _
    rw [find?_map_id_preserving _ hgid B.id _,
      nodup_mem_find? _ B hnodup1 hBmem1]
    show some (fireUpdate T.id _ B) = _
    unfold fireUpdate
    rw [if_pos hfireB]
  · intro X hX hXT hXcase
    have hXmem1 : X ∈ updateFirst (fun x => x.id == T.id)
        (fun x => { x with completed := ! x.completed }) st.tasks :=
      mem_updateFirst_of_neg _ _ X st.tasks hX (by simpa using hXT)
    have hzero : ∀ o ∈ updateFirst (fun x => x.id == T.id)
        (fun x => { x with completed := ! x.completed }) st.tasks,
        o.id = X.id → fireMem T.id (updateFirst (fun x => x.id == T.id)
          (fun x => { x with completed := ! x.completed }) st.tasks) o = false := by
      intro o ho hoid
      have hoX : o = X := List.inj_on_of_nodup_map hnodup1 ho hXmem1 (by rw [hoid])
      subst hoX
      rcases hXcase with hLF | hBL
      · simp [fireMem, hLF]
      · simp [fireMem, hBL]
    constructor
    · rw [hrun]
      rw [filter_cons_false (isUpdateOf X.id) _ _ (hheadU X.id hXT)]
      exact concatOuts_fire_count_zero T.id _ X.id (isUpdateOf X.id)
        (fun o => fireOuts_filter_update T.id _ o X.id) _ hzero
    · rw [hrun]
      rw [filter_cons_false (isReminderOf X.id)
        (Out.update { T with completed := true }) _ rfl]
      exact concatOuts_fire_count_zero T.id _ X.id (isReminderOf X.id)
        (fun o => fireOuts_filter_reminder T.id _ o X.id) _ hzero
  · intro id t stX hidX hfindX hcomp
    unfold memToggle
    rw [if_neg hidX, hfindX]
    dsimp only
    rw [hcomp]
    simp only [Bool.not_true]
    rw [if_neg (by simp)]
  · intro stG Td Bd hndG hTidG hTdG hTdnc hBdG hneG hBdT2 hBlkG hsoleG
    have hfindG : stG.docs.find? (fun x => x.docId == Td.docId) = some Td :=
      nodup_mem_find?_doc stG.docs Td hndG hTdG
    have hrunG := mongoToggle_run stG Td hTidG hfindG hTdnc
    have hnd1 : ((updateFirstDoc (fun d => d.docId == Td.docId)
        (fun d => { d with completed := ! d.completed }) stG.docs).map Doc.docId).Nodup := by
      rw [updateFirstDoc_map_docId (fun d => d.docId == Td.docId)
        (fun d => { d with completed := ! d.completed }) (fun d => rfl)]
      exact hndG
    have hBd1 : Bd ∈ updateFirstDoc (fun d => d.docId == Td.docId)
        (fun d => { d with completed := ! d.completed }) stG.docs :=
      mem_updateFirstDoc_of_neg _ _ Bd stG.docs hBdG (by simpa using hneG)
    have hfind1 : (updateFirstDoc (fun d => d.docId == Td.docId)
        (fun d => { d with completed := ! d.completed }) stG.docs).find?
          (fun x => x.docId == Td.docId) = some { Td with completed := ! Td.completed } :=
      find?_updateFirstDoc_pos Td.docId (fun d => { d with completed := ! d.completed })
        (fun d => rfl) stG.docs Td hfindG
    have hT1mem : { Td with completed := ! Td.completed } ∈
        updateFirstDoc (fun d => d.docId == Td.docId)
          (fun d => { d with completed := ! d.completed }) stG.docs :=
      List.mem_of_find?_eq_some hfind1
    have hallc : ∀ e ∈ updateFirstDoc (fun d => d.docId == Td.docId)
        (fun d => { d with completed := ! d.completed }) stG.docs,
        Bd.dependencies.contains e.docId = true → e.completed = true := by
      intro e he hc
      by_cases heT : e.docId = Td.docId
      · have heq : e = { Td with completed := ! Td.completed } :=
          List.inj_on_of_nodup_map hnd1 he hT1mem (by rw [heT])
        rw [heq]
        show (! Td.completed) = true
        rw [hTdnc]
        rfl
      · have hmem : e ∈ stG.docs :=
          mem_of_mem_updateFirstDoc_ne Td.docId
            (fun d => { d with completed := ! d.completed }) (fun d => rfl) e stG.docs he heT
        exact hsoleG e hmem (by simpa using hc) heT
    have hlockF : computeLockedForMongo (updateFirstDoc (fun d => d.docId == Td.docId)
        (fun d => { d with completed := ! d.completed }) stG.docs) Bd.dependencies = false := by
      unfold computeLockedForMongo
      by_cases hemp : Bd.dependencies.isEmpty
      · rw [if_pos hemp]
      · rw [if_neg hemp]
        have hall : ((updateFirstDoc (fun d => d.docId == Td.docId)
            (fun d => { d with completed := ! d.completed }) stG.docs).filter
              (fun d => Bd.dependencies.contains d.docId)).all (·.completed) = true := by
          rw [List.all_eq_true]
          intro d hd
          rcases List.mem_filter.mp hd with ⟨hd1, hd2⟩
          exact hallc d hd1 hd2
        rw [hall]
        rfl
    have hfireBd : fireMongo (updateFirstDoc (fun d => d.docId == Td.docId)
        (fun d => { d with completed := ! d.completed }) stG.docs) Bd = true := by
      unfold fireMongo
      rw [hlockF, hBlkG]
      rfl
    have hBdDep : Bd ∈ (updateFirstDoc (fun d => d.docId == Td.docId)
        (fun d => { d with completed := ! d.completed }) stG.docs).filter
          (fun d => d.dependencies.contains Td.docId) :=
      List.mem_filter.mpr ⟨hBd1, by simpa using hBdT2⟩
    have hnddep := nodup_filter_docIds (fun d => d.dependencies.contains Td.docId)
      (updateFirstDoc (fun d => d.docId == Td.docId)
        (fun d => { d with completed := ! d.completed }) stG.docs) hnd1
    have hspec := propagateMongoAux_spec Td.docId
      (updateFirstDoc (fun d => d.docId == Td.docId)
        (fun d => { d with completed := ! d.completed }) stG.docs)
      ((updateFirstDoc (fun d => d.docId == Td.docId)
        (fun d => { d with completed := ! d.completed }) stG.docs).filter
          (fun d => d.dependencies.contains Td.docId))
      (updateFirstDoc (fun d => d.docId == Td.docId)
        (fun d => { d with completed := ! d.completed }) stG.docs) rfl
    have hheadUG : isUpdateOf Bd.docId
        (Out.update (viewDoc { Td with completed := true })) = false := by
      show (Td.docId == Bd.docId) = false
      simpa using fun h : Td.docId = Bd.docId => hneG h.symm
    refine ⟨?_, ?_, ?_, ?_⟩
    · rw [hrunG]
      rfl
    · rw [hrunG]
      rw [filter_cons_false (isUpdateOf Bd.docId) _ _ hheadUG, hspec.1]
      exact concatOutsDoc_fire_count_one _ Bd.docId (isUpdateOf Bd.docId)
        (fun d => fireOutsMongo_filter_update _ d Bd.docId) _ hnddep Bd hBdDep rfl hfireBd
    · rw [hrunG]
      rw [filter_cons_false (isReminderOf Bd.docId)
        (Out.update (viewDoc { Td with completed := true })) _ rfl, hspec.1]
      exact concatOutsDoc_fire_count_one _ Bd.docId (isReminderOf Bd.docId)
        (fun d => fireOutsMongo_filter_reminder _ d Bd.docId) _ hnddep Bd hBdDep rfl hfireBd
    · rw [hrunG]
      exact propagateMongoAux_fires_unlock Td.docId Bd.docId
        (updateFirstDoc (fun d => d.docId == Td.docId)
          (fun d => { d with completed := ! d.completed }) stG.docs) _
        (updateFirstDoc (fun d => d.docId == Td.docId)
          (fun d => { d with completed := ! d.completed }) stG.docs) rfl
        (List.mem_map_of_mem Doc.docId hBd1) ⟨Bd, hBdDep, rfl, hfireBd⟩
  · intro id d stX hidX hfindX hcomp
    unfold mongoToggle
    rw [if_neg hidX, hfindX]
    dsimp only
    rw [hcomp]
    simp only [Bool.not_true]
    rw [if_neg (by simp)]

/-- A store where incomplete t1 is the sole blocking dependency of locked b. -/
def memToggleB : MemState :=
  ⟨[sampleTodo "t1" 0, { sampleTodo "b" 1 with dependencies := ["t1"], locked := true }], 2⟩

theorem c4_toggle_unlock_propagation_witness :
    ((memToggle "t1" memToggleB).2.filter (isUpdateOf "b")).length = 1 ∧
    ((memToggle "t1" memToggleB).2.filter (isReminderOf "b")).length = 1 :=
  ⟨(c4_toggle_unlock_propagation memToggleB (sampleTodo "t1" 0)
      ({ sampleTodo "b" 1 with dependencies := ["t1"], locked := true })
      (by decide) (by decide) (by decide) rfl (by decide) (by decide) (by decide) rfl
      (by decide)).2.1,
    (c4_toggle_unlock_propagation memToggleB (sampleTodo "t1" 0)
      ({ sampleTodo "b" 1 with dependencies := ["t1"], locked := true })
      (by decide) (by decide) (by decide) rfl (by decide) (by decide) (by decide) rfl
      (by decide)).2.2.1⟩
